import Mathlib

/-!
Shallow embedding of the asimov backtesting engine
(src/asimov/portfolios.py, src/asimov/strategies.py, src/asimov/prices.py).

A pandas Series is modelled as a list of (timestamp, value) pairs in index
order; a missing value (NaN) is modelled as `none`.  All arithmetic on
values propagates `none` exactly as pandas propagates NaN.  Division by
zero yields `none` (a non-numeric result, as pandas produces a non-finite
value there); no theorem below depends on a division-by-zero case except
through hypotheses that rule it out.  Per the data model, time indices are
ascending and duplicate-free; label alignment (pandas index union with
NaN fill for missing labels) is modelled by `unionIdx` / `getv`.
-/

/-- A pandas Series: timestamps paired with optional (NaN-able) rationals. -/
abbrev Ser := List (Int × Option Rat)

/-- Label lookup, as pandas alignment does: the value at label t, `none`
    when the label is absent (NaN fill) or the stored value is NaN. -/
def getv (s : Ser) (t : Int) : Option Rat :=
  match s.find? (fun q => q.1 == t) with
  | some q => q.2
  | none => none

/-- NaN-propagating multiplication of series values. -/
def omul (a b : Option Rat) : Option Rat :=
  match a, b with
  | some x, some y => some (x * y)
  | _, _ => none

/-- NaN-propagating addition of series values. -/
def oadd (a b : Option Rat) : Option Rat :=
  match a, b with
  | some x, some y => some (x + y)
  | _, _ => none

/-- NaN-propagating subtraction of series values. -/
def osub (a b : Option Rat) : Option Rat :=
  match a, b with
  | some x, some y => some (x - y)
  | _, _ => none

/-- NaN-propagating division; a zero divisor gives a non-numeric result. -/
def odiv (a b : Option Rat) : Option Rat :=
  match a, b with
  | some x, some y => if y = 0 then none else some (x / y)
  | _, _ => none

/-- Sorted-merge worker for the index union, with explicit fuel so that
    the definition is structurally recursive (the fuel never runs out when
    it starts at the summed lengths). -/
def unionIdxF : Nat → List Int → List Int → List Int
  | _, [], b => b
  | _, x :: xs, [] => x :: xs
  | 0, _ :: _, _ :: _ => []
  | Nat.succ n, x :: xs, y :: ys =>
    if x < y then x :: unionIdxF n xs (y :: ys)
    else if y < x then y :: unionIdxF n (x :: xs) ys
    else x :: unionIdxF n xs ys

/-- Sorted union of two ascending label lists (pandas Index.union). -/
def unionIdx (a b : List Int) : List Int := unionIdxF (a.length + b.length) a b

/-- A binary pandas Series operation: align on the union of the two
    indices, missing labels contributing NaN. -/
def alignOp (f : Option Rat → Option Rat → Option Rat) (x y : Ser) : Ser :=
  (unionIdx (x.map Prod.fst) (y.map Prod.fst)).map
    (fun t => (t, f (getv x t) (getv y t)))

/-- Series.dropna. -/
def dropna (s : Ser) : Ser := s.filter (fun q => q.2.isSome)

/-- Series.diff(): first difference, NaN in the first row. -/
def diff1 (s : Ser) : Ser :=
  List.zipWith (fun (cur : Int × Option Rat) (prev : Option Rat) => (cur.1, osub cur.2 prev))
    s (none :: s.map Prod.snd)

/-- Forward fill of values, carrying the last defined value. -/
def ffillVals (last : Option Rat) : Ser → Ser
  | [] => []
  | q :: rest =>
    match q.2 with
    | some x => (q.1, some x) :: ffillVals (some x) rest
    | none => (q.1, last) :: ffillVals last rest

/-- One pct_change step: (cur - prev) / prev, NaN-propagating. -/
def opct (cur prev : Option Rat) : Option Rat :=
  match cur, prev with
  | some a, some b => if b = 0 then none else some ((a - b) / b)
  | _, _ => none

/-- Series.pct_change(): pandas default pads missing values forward,
    then divides each change by the previous (filled) value; first row NaN. -/
def pctChange (s : Ser) : Ser :=
  let f := ffillVals none s
  List.zipWith (fun (cur : Int × Option Rat) (prev : Option Rat) => (cur.1, opct cur.2 prev))
    f (none :: f.map Prod.snd)

/-- Series.cumsum() with skipna: NaN entries stay NaN and are skipped. -/
def cumsumAux (acc : Rat) : Ser → Ser
  | [] => []
  | q :: rest =>
    match q.2 with
    | some x => (q.1, some (acc + x)) :: cumsumAux (acc + x) rest
    | none => (q.1, none) :: cumsumAux acc rest

def cumsumSer (s : Ser) : Ser := cumsumAux 0 s

/-- Series.cumprod() with skipna. -/
def cumprodAux (acc : Rat) : Ser → Ser
  | [] => []
  | q :: rest =>
    match q.2 with
    | some x => (q.1, some (acc * x)) :: cumprodAux (acc * x) rest
    | none => (q.1, none) :: cumprodAux acc rest

def cumprodSer (s : Ser) : Ser := cumprodAux 1 s

/-- Series.cummax() with skipna. -/
def cummaxAux (acc : Option Rat) : Ser → Ser
  | [] => []
  | q :: rest =>
    match q.2 with
    | some x =>
      let m := match acc with
        | some a => max a x
        | none => x
      (q.1, some m) :: cummaxAux (some m) rest
    | none => (q.1, none) :: cummaxAux acc rest

def cummaxSer (s : Ser) : Ser := cummaxAux none s

/-- Series.ewm(span=span).mean() with pandas defaults adjust=True,
    ignore_na=False: at each step the running weighted numerator and
    denominator decay by w = 1 - 2/(span+1); output is NaN until the
    first defined observation. -/
def ewmAux (w : Rat) (num den : Rat) : Ser → Ser
  | [] => []
  | q :: rest =>
    match q.2 with
    | some x =>
      let n := w * num + x
      let d := w * den + 1
      (q.1, if d = 0 then none else some (n / d)) :: ewmAux w n d rest
    | none =>
      let n := w * num
      let d := w * den
      (q.1, if d = 0 then none else some (n / d)) :: ewmAux w n d rest

def ewmMean (span : Nat) (s : Ser) : Ser :=
  ewmAux (((span : Rat) - 1) / ((span : Rat) + 1)) 0 0 s

/-- Elementwise 1 - cum_returns / running-max step of the drawdown line. -/
def ddOp (a b : Option Rat) : Option Rat :=
  (odiv a b).map (fun x => 1 - x)

/-!  The MACD helper (src/asimov/prices.py, function macd, percent=True as
     called by the strategy): percentage returns of close, two EWMs, their
     difference and its own EWM, outer-joined into one frame. -/

/-- macd: returns the (macd, signal) column pair of the frame built by
    pd.concat([mac, sig], axis=1) (outer join of the two indices). -/
def macd (close : Ser) (slow fast sg : Nat) : Ser × Ser :=
  let rets := pctChange close
  let a := ewmMean fast rets
  let b := ewmMean slow rets
  let mac := dropna (alignOp osub a b)
  let sigl := dropna (ewmMean sg mac)
  let dfIdx := unionIdx (mac.map Prod.fst) (sigl.map Prod.fst)
  (dfIdx.map (fun t => (t, getv mac t)), dfIdx.map (fun t => (t, getv sigl t)))

/-- The comparison df['macd'] > df['signal'] (NaN compares False). -/
def ogt (a b : Option Rat) : Bool :=
  match a, b with
  | some x, some y => decide (y < x)
  | _, _ => false

/-- The boolean crossover state per timestamp of the macd frame. -/
def macdGtList (close : Ser) (slow fast sg : Nat) : List (Int × Bool) :=
  let p := macd close slow fast sg
  List.zipWith (fun (m s : Int × Option Rat) => (m.1, ogt m.2 s.2)) p.1 p.2

/-- MACDCrossStrategy.generate_signals: np.where(macd > signal, 1, 0)
    as a Series on the frame index, then .diff().dropna(). -/
def generate_signals (close : Ser) (fast slow sg : Nat) : Ser :=
  let b := (macdGtList close slow fast sg).map
    (fun q => (q.1, some (if q.2 then (1 : Rat) else 0)))
  dropna (diff1 b)

/-!  The portfolio core (src/asimov/portfolios.py). -/

/-- The error kinds named by the design; the implementation under test
    never raises any of them. -/
inductive AsimovError where
  | invalidCapital
  | misalignedSeries
  | invalidSignalValue

/-- MarketOnClosePortfolio.generate_positions: an empty frame on the
    signal index, then the column assignment
    positions[symbol] = 100 * signals, which label-aligns the scaled
    signal series onto the frame index. -/
def generate_positions (signals : Ser) : Ser :=
  let scaled := signals.map (fun q => (q.1, q.2.map (fun v => 100 * v)))
  (signals.map Prod.fst).map (fun t => (t, getv scaled t))

structure MarketOnClosePortfolio where
  symbol : String
  barsClose : Ser
  signals : Ser
  initial_capital : Rat
  positions : Ser

/-- The constructor body: store the fields and compute positions eagerly.
    It contains no validation and no raise, so it always succeeds. -/
def portfolioInit (symbol : String) (barsClose : Ser) (signals : Ser)
    (cap : Rat := 10000) : Except AsimovError MarketOnClosePortfolio :=
  Except.ok
    { symbol := symbol
      barsClose := barsClose
      signals := signals
      initial_capital := cap
      positions := generate_positions signals }

/-- The equity-curve frame: the six columns built by backtest, each on the
    positions index. -/
structure EquityCurve where
  holdings : Ser
  cash : Ser
  total : Ser
  returns : Ser
  cum_returns : Ser
  drawdown : Ser

/-!  MarketOnClosePortfolio.backtest, modelled line by line through the
     btXxx definitions below, assembled by the backtest function. -/

/-- holdings = positions.rmul(bars[close], axis=0): the label-aligned
    product frame, still on the union index. -/
def btHdf (p : MarketOnClosePortfolio) : Ser :=
  alignOp omul p.positions p.barsClose

/-- holdings.sum(axis=1): the single product column summed per row; an
    all-NaN row sums to 0, so every value becomes defined. -/
def btHsum (p : MarketOnClosePortfolio) : Ser :=
  (btHdf p).map (fun q => (q.1, some (q.2.getD 0)))

/-- portfolio[holdings]: the summed holdings aligned onto the frame index
    (positions.index). -/
def btHoldings (p : MarketOnClosePortfolio) : Ser :=
  (p.positions.map Prod.fst).map (fun t => (t, getv (btHsum p) t))

/-- (pos_diff[symbol] * bars[close]).cumsum(): the trade cash flows,
    accumulated over the union index. -/
def btCashCum (p : MarketOnClosePortfolio) : Ser :=
  cumsumSer (alignOp omul (diff1 p.positions) p.barsClose)

/-- portfolio[cash] = initial_capital - cumulative trade cost, aligned
    onto the frame index. -/
def btCash (p : MarketOnClosePortfolio) : Ser :=
  (p.positions.map Prod.fst).map
    (fun t => (t, (getv (btCashCum p) t).map (fun x => p.initial_capital - x)))

/-- portfolio[total] = portfolio[holdings] + portfolio[cash]. -/
def btTotal (p : MarketOnClosePortfolio) : Ser :=
  alignOp oadd (btHoldings p) (btCash p)

/-- portfolio[returns] = portfolio[total].pct_change(). -/
def btReturns (p : MarketOnClosePortfolio) : Ser :=
  pctChange (btTotal p)

/-- portfolio[cum_returns] = (1 + portfolio[returns]).cumprod(). -/
def btCumRet (p : MarketOnClosePortfolio) : Ser :=
  cumprodSer ((btReturns p).map (fun q => (q.1, q.2.map (fun x => 1 + x))))

/-- portfolio[drawdown] = 1 - cum_returns / cum_returns.cummax(). -/
def btDrawdown (p : MarketOnClosePortfolio) : Ser :=
  alignOp ddOp (btCumRet p) (cummaxSer (btCumRet p))

def backtest (p : MarketOnClosePortfolio) : EquityCurve :=
  { holdings := btHoldings p
    cash := btCash p
    total := btTotal p
    returns := btReturns p
    cum_returns := btCumRet p
    drawdown := btDrawdown p }

/-- The backtest method raises nothing: misaligned labels flow through
    pandas alignment as NaN, so the call always returns a frame. -/
def backtestE (p : MarketOnClosePortfolio) : Except AsimovError EquityCurve :=
  Except.ok (backtest p)

/-- The object built by MarketOnClosePortfolio.__init__ (the payload of
    portfolioInit): fields stored, positions computed eagerly. -/
def mkMOCP (sym : String) (bars signals : Ser) (cap : Rat) : MarketOnClosePortfolio :=
  { symbol := sym
    barsClose := bars
    signals := signals
    initial_capital := cap
    positions := generate_positions signals }

/-!  Helper lemmas about the series operations. -/

theorem map_fst_pair (l : List Int) (g : Int → Option Rat) :
    (l.map (fun t => (t, g t))).map Prod.fst = l := by
  induction l with
  | nil => rfl
  | cons x xs ih => simp [ih]

theorem unionIdxF_nil_left (n : Nat) (b : List Int) : unionIdxF n [] b = b := by
  cases n <;> rfl

theorem unionIdxF_nil_right (n : Nat) (x : Int) (xs : List Int) :
    unionIdxF n (x :: xs) [] = x :: xs := by
  cases n <;> rfl

theorem unionIdx_nil_left (b : List Int) : unionIdx [] b = b :=
  unionIdxF_nil_left _ b

theorem unionIdx_nil_right (a : List Int) : unionIdx a [] = a := by
  cases a with
  | nil => exact unionIdxF_nil_left _ _
  | cons x xs => exact unionIdxF_nil_right _ x xs

theorem unionIdxF_irrel : ∀ (n m : Nat) (a b : List Int),
    a.length + b.length ≤ n → a.length + b.length ≤ m →
    unionIdxF n a b = unionIdxF m a b := by
  intro n
  induction n with
  | zero =>
    intro m a b hn _
    cases a with
    | nil => rw [unionIdxF_nil_left, unionIdxF_nil_left]
    | cons x xs =>
      cases b with
      | nil => rw [unionIdxF_nil_right, unionIdxF_nil_right]
      | cons y ys => simp only [List.length_cons] at hn; omega
  | succ n ih =>
    intro m a b hn hm
    cases a with
    | nil => rw [unionIdxF_nil_left, unionIdxF_nil_left]
    | cons x xs =>
      cases b with
      | nil => rw [unionIdxF_nil_right, unionIdxF_nil_right]
      | cons y ys =>
        cases m with
        | zero => simp only [List.length_cons] at hm; omega
        | succ m2 =>
          simp only [unionIdxF]
          by_cases h1 : x < y
          · simp only [if_pos h1]
            rw [ih m2 xs (y :: ys)
              (by simp only [List.length_cons] at hn ⊢; omega)
              (by simp only [List.length_cons] at hm ⊢; omega)]
          · by_cases h2 : y < x
            · simp only [if_neg h1, if_pos h2]
              rw [ih m2 (x :: xs) ys
                (by simp only [List.length_cons] at hn ⊢; omega)
                (by simp only [List.length_cons] at hm ⊢; omega)]
            · simp only [if_neg h1, if_neg h2]
              rw [ih m2 xs ys
                (by simp only [List.length_cons] at hn ⊢; omega)
                (by simp only [List.length_cons] at hm ⊢; omega)]

theorem unionIdx_cons_cons (x y : Int) (xs ys : List Int) :
    unionIdx (x :: xs) (y :: ys) =
      if x < y then x :: unionIdx xs (y :: ys)
      else if y < x then y :: unionIdx (x :: xs) ys
      else x :: unionIdx xs ys := by
  unfold unionIdx
  have hlen : (x :: xs).length + (y :: ys).length
      = Nat.succ (xs.length + (y :: ys).length) := by
    simp only [List.length_cons]
    omega
  rw [hlen]
  simp only [unionIdxF]
  by_cases h1 : x < y
  · simp only [if_pos h1]
  · by_cases h2 : y < x
    · simp only [if_neg h1, if_pos h2]
      rw [unionIdxF_irrel (xs.length + (y :: ys).length) ((x :: xs).length + ys.length)
        (x :: xs) ys (by simp only [List.length_cons]; omega)
        (by simp only [List.length_cons]; omega)]
    · simp only [if_neg h1, if_neg h2]
      rw [unionIdxF_irrel (xs.length + (y :: ys).length) (xs.length + ys.length)
        xs ys (by simp only [List.length_cons]; omega) (by omega)]

theorem unionIdx_self (l : List Int) : unionIdx l l = l := by
  induction l with
  | nil => exact unionIdx_nil_left []
  | cons x xs ih =>
    rw [unionIdx_cons_cons]
    simp [ih]

theorem getv_cons_self (t : Int) (v : Option Rat) (s : Ser) :
    getv ((t, v) :: s) t = v := by
  simp [getv, List.find?]

theorem getv_cons_ne (t u : Int) (v : Option Rat) (s : Ser) (h : u ≠ t) :
    getv ((u, v) :: s) t = getv s t := by
  unfold getv
  rw [List.find?_cons_of_neg _ (by simp [h])]

theorem getv_not_mem (s : Ser) (t : Int) (h : t ∉ s.map Prod.fst) : getv s t = none := by
  induction s with
  | nil => rfl
  | cons q rest ih =>
    simp only [List.map_cons, List.mem_cons, not_or] at h
    obtain ⟨hq, hrest⟩ := h
    obtain ⟨u, v⟩ := q
    rw [getv_cons_ne _ _ _ _ (fun he => hq he.symm)]
    exact ih hrest

theorem getv_const (s : Ser) (c : Option Rat) (hc : ∀ q ∈ s, q.2 = c) (t : Int)
    (ht : t ∈ s.map Prod.fst) : getv s t = c := by
  induction s with
  | nil => simp at ht
  | cons q rest ih =>
    obtain ⟨u, v⟩ := q
    by_cases hu : u = t
    · subst hu
      rw [getv_cons_self]
      exact hc (u, v) (List.mem_cons_self _ _)
    · rw [getv_cons_ne _ _ _ _ hu]
      simp only [List.map_cons, List.mem_cons] at ht
      rcases ht with h1 | h2
      · exact absurd h1.symm hu
      · exact ih (fun q hq => hc q (List.mem_cons_of_mem _ hq)) h2

theorem getv_all_none (s : Ser) (hc : ∀ q ∈ s, q.2 = none) (t : Int) : getv s t = none := by
  by_cases ht : t ∈ s.map Prod.fst
  · exact getv_const s none hc t ht
  · exact getv_not_mem s t ht

theorem getv_of_mem (s : Ser) (t : Int) (v : Option Rat)
    (hd : (s.map Prod.fst).Pairwise (fun a b => a ≠ b)) (hm : (t, v) ∈ s) :
    getv s t = v := by
  induction s with
  | nil => simp at hm
  | cons q rest ih =>
    simp only [List.map_cons, List.pairwise_cons] at hd
    rcases List.mem_cons.1 hm with h1 | h2
    · rw [← h1]
      exact getv_cons_self _ _ _
    · obtain ⟨u, w⟩ := q
      have hne : u ≠ t :=
        hd.1 t (by simpa using List.mem_map_of_mem Prod.fst h2)
      rw [getv_cons_ne _ _ _ _ hne]
      exact ih hd.2 h2

theorem map_fst_getv (s : Ser) (g : Option Rat → Option Rat)
    (hd : (s.map Prod.fst).Pairwise (fun a b => a ≠ b)) :
    (s.map Prod.fst).map (fun t => (t, g (getv s t))) = s.map (fun q => (q.1, g q.2)) := by
  rw [List.map_map]
  apply List.map_congr_left
  intro q hq
  simp only [Function.comp_apply]
  rw [getv_of_mem s q.1 q.2 hd (by simpa using hq)]

theorem map_fst_getv_id (s : Ser)
    (hd : (s.map Prod.fst).Pairwise (fun a b => a ≠ b)) :
    (s.map Prod.fst).map (fun t => (t, getv s t)) = s := by
  have h := map_fst_getv s (fun v => v) hd
  simpa using h

theorem mem_unionIdxF (t : Int) : ∀ (n : Nat) (a b : List Int),
    a.length + b.length ≤ n → (t ∈ unionIdxF n a b ↔ t ∈ a ∨ t ∈ b) := by
  intro n
  induction n with
  | zero =>
    intro a b h
    cases a with
    | nil => rw [unionIdxF_nil_left]; simp
    | cons x xs =>
      cases b with
      | nil => rw [unionIdxF_nil_right]; simp
      | cons y ys => simp only [List.length_cons] at h; omega
  | succ n ih =>
    intro a b h
    cases a with
    | nil => rw [unionIdxF_nil_left]; simp
    | cons x xs =>
      cases b with
      | nil => rw [unionIdxF_nil_right]; simp
      | cons y ys =>
        simp only [unionIdxF]
        by_cases h1 : x < y
        · simp only [if_pos h1, List.mem_cons]
          rw [ih xs (y :: ys) (by simp only [List.length_cons] at h ⊢; omega)]
          simp only [List.mem_cons]
          tauto
        · by_cases h2 : y < x
          · simp only [if_neg h1, if_pos h2, List.mem_cons]
            rw [ih (x :: xs) ys (by simp only [List.length_cons] at h ⊢; omega)]
            simp only [List.mem_cons]
            tauto
          · have hxy : x = y := le_antisymm (not_lt.1 h2) (not_lt.1 h1)
            subst hxy
            simp only [if_neg h1, List.mem_cons]
            rw [ih xs ys (by simp only [List.length_cons] at h ⊢; omega)]
            tauto

theorem mem_unionIdx (t : Int) (a b : List Int) :
    t ∈ unionIdx a b ↔ t ∈ a ∨ t ∈ b :=
  mem_unionIdxF t (a.length + b.length) a b le_rfl

theorem map_fst_zipWith {β : Type} (g : (Int × Option Rat) → β → Option Rat) :
    ∀ (s : List (Int × Option Rat)) (ps : List β), s.length ≤ ps.length →
    (List.zipWith (fun c p => (c.1, g c p)) s ps).map Prod.fst = s.map Prod.fst := by
  intro s
  induction s with
  | nil => intro ps h; simp
  | cons x xs ih =>
    intro ps h
    cases ps with
    | nil => simp at h
    | cons p pst =>
      simp only [List.zipWith_cons_cons, List.map_cons]
      rw [ih pst (by simpa using h)]

theorem mem_zip_shape {β : Type} (g : (Int × Option Rat) → β → Option Rat) :
    ∀ (s : List (Int × Option Rat)) (ps : List β) q,
    q ∈ List.zipWith (fun c p => (c.1, g c p)) s ps →
    ∃ c ∈ s, ∃ p, q = (c.1, g c p) := by
  intro s
  induction s with
  | nil => intro ps q hq; simp at hq
  | cons x xs ih =>
    intro ps q hq
    cases ps with
    | nil => simp at hq
    | cons p pst =>
      simp only [List.zipWith_cons_cons, List.mem_cons] at hq
      rcases hq with h1 | h2
      · exact ⟨x, List.mem_cons_self _ _, p, h1⟩
      · obtain ⟨c, hc, p2, hp⟩ := ih pst q h2
        exact ⟨c, List.mem_cons_of_mem _ hc, p2, hp⟩

theorem fst_diff1 (s : Ser) : (diff1 s).map Prod.fst = s.map Prod.fst := by
  apply map_fst_zipWith (fun c p => osub c.2 p)
  simp

theorem fst_ffill : ∀ (last : Option Rat) (s : Ser),
    (ffillVals last s).map Prod.fst = s.map Prod.fst := by
  intro last s
  induction s generalizing last with
  | nil => rfl
  | cons q rest ih =>
    obtain ⟨u, v⟩ := q
    cases v with
    | some x => simp [ffillVals, ih]
    | none => simp [ffillVals, ih]

theorem length_ffill (last : Option Rat) (s : Ser) :
    (ffillVals last s).length = s.length := by
  have h := congrArg List.length (fst_ffill last s)
  simpa using h

theorem fst_pctChange (s : Ser) : (pctChange s).map Prod.fst = s.map Prod.fst := by
  unfold pctChange
  rw [map_fst_zipWith (fun c p => opct c.2 p) _ _ (by simp), fst_ffill]

theorem fst_cumsumAux : ∀ (acc : Rat) (s : Ser),
    (cumsumAux acc s).map Prod.fst = s.map Prod.fst := by
  intro acc s
  induction s generalizing acc with
  | nil => rfl
  | cons q rest ih =>
    obtain ⟨u, v⟩ := q
    cases v with
    | some x => simp [cumsumAux, ih]
    | none => simp [cumsumAux, ih]

theorem fst_cumprodAux : ∀ (acc : Rat) (s : Ser),
    (cumprodAux acc s).map Prod.fst = s.map Prod.fst := by
  intro acc s
  induction s generalizing acc with
  | nil => rfl
  | cons q rest ih =>
    obtain ⟨u, v⟩ := q
    cases v with
    | some x => simp [cumprodAux, ih]
    | none => simp [cumprodAux, ih]

theorem fst_cummaxAux : ∀ (acc : Option Rat) (s : Ser),
    (cummaxAux acc s).map Prod.fst = s.map Prod.fst := by
  intro acc s
  induction s generalizing acc with
  | nil => rfl
  | cons q rest ih =>
    obtain ⟨u, v⟩ := q
    cases v with
    | some x => simp [cummaxAux, ih]
    | none => simp [cummaxAux, ih]

theorem fst_ewmAux (w : Rat) : ∀ (num den : Rat) (s : Ser),
    (ewmAux w num den s).map Prod.fst = s.map Prod.fst := by
  intro num den s
  induction s generalizing num den with
  | nil => rfl
  | cons q rest ih =>
    obtain ⟨u, v⟩ := q
    cases v with
    | some x => simp [ewmAux, ih]
    | none => simp [ewmAux, ih]

theorem fst_alignOp (f : Option Rat → Option Rat → Option Rat) (x y : Ser) :
    (alignOp f x y).map Prod.fst = unionIdx (x.map Prod.fst) (y.map Prod.fst) := by
  unfold alignOp
  exact map_fst_pair _ _

theorem fst_generate_positions (s : Ser) :
    (generate_positions s).map Prod.fst = s.map Prod.fst := by
  unfold generate_positions
  exact map_fst_pair _ _

theorem alignOp_map_getv (f : Option Rat → Option Rat → Option Rat) (x y : Ser)
    (hfst : x.map Prod.fst = y.map Prod.fst) :
    alignOp f x y = (x.map Prod.fst).map (fun t => (t, f (getv x t) (getv y t))) := by
  unfold alignOp
  rw [← hfst, unionIdx_self]

theorem alignOp_eq_zipWith (f : Option Rat → Option Rat → Option Rat) :
    ∀ (x y : Ser), x.map Prod.fst = y.map Prod.fst →
    (x.map Prod.fst).Pairwise (fun a b => a ≠ b) →
    alignOp f x y = List.zipWith (fun a b => (a.1, f a.2 b.2)) x y := by
  intro x
  induction x with
  | nil =>
    intro y hfst _
    have hy : y = [] := by
      cases y with
      | nil => rfl
      | cons q qs => simp at hfst
    subst hy
    simp [alignOp, unionIdx_nil_left]
  | cons x0 xs ih =>
    intro y hfst hd
    cases y with
    | nil => simp at hfst
    | cons y0 ys =>
      obtain ⟨u, v⟩ := x0
      obtain ⟨u2, w⟩ := y0
      simp only [List.map_cons, List.cons.injEq] at hfst
      obtain ⟨hu, htail⟩ := hfst
      subst hu
      rw [alignOp_map_getv _ _ _ (by simp [htail])]
      simp only [List.map_cons, List.pairwise_cons] at hd
      simp only [List.map_cons, List.zipWith_cons_cons, getv_cons_self,
        List.cons.injEq, true_and]
      have step : (xs.map Prod.fst).map
          (fun t => (t, f (getv ((u, v) :: xs) t) (getv ((u, w) :: ys) t))) =
          (xs.map Prod.fst).map (fun t => (t, f (getv xs t) (getv ys t))) := by
        apply List.map_congr_left
        intro t ht
        have hne : u ≠ t := hd.1 t ht
        rw [getv_cons_ne _ _ _ _ hne, getv_cons_ne _ _ _ _ hne]
      rw [step, ← alignOp_map_getv f xs ys htail]
      exact ih ys htail hd.2

theorem generate_positions_eq (s : Ser)
    (hd : (s.map Prod.fst).Pairwise (fun a b => a ≠ b)) :
    generate_positions s = s.map (fun q => (q.1, q.2.map (fun v => 100 * v))) := by
  unfold generate_positions
  have h1 : (s.map (fun q => (q.1, q.2.map (fun v => (100:Rat) * v)))).map Prod.fst
      = s.map Prod.fst := by
    simp [List.map_map, Function.comp]
  rw [← h1]
  exact map_fst_getv_id _ (by rw [h1]; exact hd)

theorem zip_omul_zero : ∀ (xs ys : Ser), xs.map Prod.fst = ys.map Prod.fst →
    (∀ q ∈ xs, q.2 = none ∨ q.2 = some 0) → (∀ q ∈ ys, q.2.isSome) →
    List.zipWith (fun a b => (a.1, omul a.2 b.2)) xs ys = xs := by
  intro xs
  induction xs with
  | nil => intro ys _ _ _; simp
  | cons x xt ih =>
    intro ys hfst hx hy
    cases ys with
    | nil => simp at hfst
    | cons y yt =>
      simp only [List.map_cons, List.cons.injEq] at hfst
      simp only [List.zipWith_cons_cons]
      have hyv : y.2.isSome := hy y (List.mem_cons_self _ _)
      obtain ⟨c, hc⟩ := Option.isSome_iff_exists.1 hyv
      have hhead : (x.1, omul x.2 y.2) = x := by
        rcases hx x (List.mem_cons_self _ _) with h0 | h0
        · rw [hc, h0]
          simp only [omul]
          rw [← h0]
        · rw [hc, h0]
          simp only [omul, zero_mul]
          rw [← h0]
      rw [hhead, ih yt hfst.2 (fun q hq => hx q (List.mem_cons_of_mem _ hq))
        (fun q hq => hy q (List.mem_cons_of_mem _ hq))]

theorem cumsumAux_zeros : ∀ (l : List Int) (acc : Rat),
    cumsumAux acc (l.map (fun t => (t, some (0:Rat)))) = l.map (fun t => (t, some acc)) := by
  intro l
  induction l with
  | nil => intro acc; rfl
  | cons x xs ih => intro acc; simp [cumsumAux, ih]

theorem cumprodAux_ones : ∀ (l : List Int) (acc : Rat),
    cumprodAux acc (l.map (fun t => (t, some (1:Rat)))) = l.map (fun t => (t, some acc)) := by
  intro l
  induction l with
  | nil => intro acc; rfl
  | cons x xs ih => intro acc; simp [cumprodAux, ih]

theorem cummaxAux_const : ∀ (l : List Int) (m : Rat),
    cummaxAux (some m) (l.map (fun t => (t, some m))) = l.map (fun t => (t, some m)) := by
  intro l
  induction l with
  | nil => intro m; rfl
  | cons x xs ih => intro m; simp [cummaxAux, ih]

theorem ffill_all_some : ∀ (s : Ser) (last : Option Rat),
    (∀ q ∈ s, q.2.isSome) → ffillVals last s = s := by
  intro s
  induction s with
  | nil => intro last _; rfl
  | cons q rest ih =>
    intro last hall
    have hq := hall q (List.mem_cons_self _ _)
    obtain ⟨c, hc⟩ := Option.isSome_iff_exists.1 hq
    obtain ⟨u, v⟩ := q
    simp only at hc
    rw [hc]
    simp only [ffillVals]
    rw [ih (some c) (fun r hr => hall r (List.mem_cons_of_mem _ hr))]

theorem dropna_all_some (s : Ser) (hall : ∀ q ∈ s, q.2.isSome) : dropna s = s := by
  unfold dropna
  exact List.filter_eq_self.2 hall

theorem cumsumAux_none (s : Ser) (hall : ∀ q ∈ s, q.2 = none) :
    ∀ acc, cumsumAux acc s = s := by
  induction s with
  | nil => intro acc; rfl
  | cons q rest ih =>
    intro acc
    obtain ⟨u, v⟩ := q
    have hv : v = none := hall (u, v) (List.mem_cons_self _ _)
    subst hv
    simp only [cumsumAux]
    rw [ih (fun r hr => hall r (List.mem_cons_of_mem _ hr)) acc]

theorem cumprodAux_none (s : Ser) (hall : ∀ q ∈ s, q.2 = none) :
    ∀ acc, cumprodAux acc s = s := by
  induction s with
  | nil => intro acc; rfl
  | cons q rest ih =>
    intro acc
    obtain ⟨u, v⟩ := q
    have hv : v = none := hall (u, v) (List.mem_cons_self _ _)
    subst hv
    simp only [cumprodAux]
    rw [ih (fun r hr => hall r (List.mem_cons_of_mem _ hr)) acc]

theorem ffill_none (s : Ser) (hall : ∀ q ∈ s, q.2 = none) : ffillVals none s = s := by
  induction s with
  | nil => rfl
  | cons q rest ih =>
    obtain ⟨u, v⟩ := q
    have hv : v = none := hall (u, v) (List.mem_cons_self _ _)
    subst hv
    simp only [ffillVals]
    rw [ih (fun r hr => hall r (List.mem_cons_of_mem _ hr))]

theorem zip_pct_const (c : Rat) (hc : c ≠ 0) : ∀ (l : List Int) (ps : List (Option Rat)),
    (∀ p ∈ ps, p = some c) → l.length ≤ ps.length →
    List.zipWith (fun (cur : Int × Option Rat) prev => (cur.1, opct cur.2 prev))
      (l.map (fun u => (u, some c))) ps = l.map (fun u => (u, some (0:Rat))) := by
  intro l
  induction l with
  | nil => intro ps _ _; simp
  | cons x xs ih =>
    intro ps hall hlen
    cases ps with
    | nil => simp at hlen
    | cons p pt =>
      have hp : p = some c := hall p (List.mem_cons_self _ _)
      subst hp
      simp only [List.map_cons, List.zipWith_cons_cons]
      have hval : opct (some c) (some c) = some 0 := by
        simp [opct, hc]
      rw [hval, ih pt (fun r hr => hall r (List.mem_cons_of_mem _ hr)) (by simpa using hlen)]

theorem map_fst_pairmap (s : Ser) (g : Option Rat → Option Rat) :
    (s.map (fun q => (q.1, g q.2))).map Prod.fst = s.map Prod.fst := by
  rw [List.map_map]
  rfl

theorem pctChange_cons_none (t : Int) (v : Option Rat) (rest : Ser) :
    ∃ tail, pctChange ((t, v) :: rest) = (t, none) :: tail := by
  unfold pctChange
  cases v with
  | some x =>
    simp only [ffillVals, List.map_cons, List.zipWith_cons_cons]
    exact ⟨_, rfl⟩
  | none =>
    simp only [ffillVals, List.map_cons, List.zipWith_cons_cons]
    exact ⟨_, rfl⟩

theorem fst_btHoldings (p : MarketOnClosePortfolio) :
    (btHoldings p).map Prod.fst = p.positions.map Prod.fst :=
  map_fst_pair _ _

theorem fst_btCash (p : MarketOnClosePortfolio) :
    (btCash p).map Prod.fst = p.positions.map Prod.fst :=
  map_fst_pair _ _

theorem btTotal_map (p : MarketOnClosePortfolio) :
    btTotal p = (p.positions.map Prod.fst).map
      (fun u => (u, oadd (getv (btHoldings p) u) (getv (btCash p) u))) := by
  unfold btTotal
  rw [alignOp_map_getv oadd _ _ (by rw [fst_btHoldings, fst_btCash]), fst_btHoldings]

theorem backtest_cum_head (p : MarketOnClosePortfolio) (t : Int) (v : Option Rat)
    (rest : Ser) (hpos : p.positions = (t, v) :: rest) :
    ∃ tail, (backtest p).cum_returns = (t, none) :: tail := by
  show ∃ tail, btCumRet p = (t, none) :: tail
  have htot : btTotal p = (t, oadd (getv (btHoldings p) t) (getv (btCash p) t)) ::
      (rest.map Prod.fst).map
        (fun u => (u, oadd (getv (btHoldings p) u) (getv (btCash p) u))) := by
    rw [btTotal_map, hpos, List.map_cons, List.map_cons]
  unfold btCumRet btReturns
  rw [htot]
  obtain ⟨tail, htail⟩ := pctChange_cons_none t _ _
  rw [htail]
  simp only [List.map_cons, Option.map_none']
  exact ⟨_, rfl⟩

/-!  Claim theorems. -/

/-- C1 (counterexample): for the price-move scenario (prices 50, 55;
    positions 100, 100; initial capital 10000) the cash column produced by
    backtest is not the claimed [5000, 5000]: the first-row position delta
    is NaN, so cash is NaN at t0 and 10000 at t1. -/
theorem c1_price_move_counterexample :
    (backtest (mkMOCP "A" [((0:Int), some (50:Rat)), (1, some 55)]
      [((0:Int), some (1:Rat)), (1, some 1)] 10000)).cash
      ≠ [((0:Int), some (5000:Rat)), (1, some 5000)] := by with_unfolding_all decide

/-- C1 (amended): in the price-move scenario the code produces
    holdings = [5000, 5500]; cash = [NaN, 10000] (the first-row delta of
    positions.diff() is NaN, so the initial purchase is never debited);
    total = [NaN, 15500]; returns, cum_returns and drawdown are NaN at both
    timestamps, because total at t0 is NaN. -/
theorem c1_price_move_amended :
    backtest (mkMOCP "A" [((0:Int), some (50:Rat)), (1, some 55)]
      [((0:Int), some (1:Rat)), (1, some 1)] 10000) =
    { holdings := [(0, some 5000), (1, some 5500)]
      cash := [(0, none), (1, some 10000)]
      total := [(0, none), (1, some 15500)]
      returns := [(0, none), (1, none)]
      cum_returns := [(0, none), (1, none)]
      drawdown := [(0, none), (1, none)] } := by with_unfolding_all rfl

/-- C2 (counterexample): in the price-move scenario cum_returns at the
    first timestamp is NaN, not 1. -/
theorem c2_cum_returns_first_counterexample :
    getv (backtest (mkMOCP "A" [((0:Int), some (50:Rat)), (1, some 55)]
      [((0:Int), some (1:Rat)), (1, some 1)] 10000)).cum_returns 0 ≠ some 1 := by
  with_unfolding_all decide

/-- C2 (amended): for every non-empty input the cum_returns column is
    undefined (NaN) at the first timestamp of the index, because the first
    period return is undefined and (1 + NaN).cumprod() leaves NaN in place. -/
theorem c2_cum_returns_first_amended (sym : String) (bars : Ser) (q : Int × Option Rat)
    (qs : Ser) (cap : Rat) :
    ∃ tail, (backtest (mkMOCP sym bars (q :: qs) cap)).cum_returns
      = (q.1, none) :: tail := by
  obtain ⟨t, v⟩ := q
  have hshape : ∃ v0 r, (mkMOCP sym bars ((t, v) :: qs) cap).positions = (t, v0) :: r := by
    simp only [mkMOCP, generate_positions, List.map_cons]
    exact ⟨_, _, rfl⟩
  obtain ⟨v0, r, hr⟩ := hshape
  exact backtest_cum_head _ t v0 r hr

/-- C4 (confirmed): generate_positions keeps the signal series' own time
    index and scales every signal value by the lot size 100 (a missing
    signal value scales to a missing position value). -/
theorem c4_positions_scaling (signals : Ser)
    (hd : (signals.map Prod.fst).Pairwise (fun a b => a ≠ b)) :
    (generate_positions signals).map Prod.fst = signals.map Prod.fst ∧
    generate_positions signals
      = signals.map (fun q => (q.1, q.2.map (fun v => 100 * v))) :=
  ⟨fst_generate_positions signals, generate_positions_eq signals hd⟩

/-- C4 witness: the theorem applied to the concrete signal series
    [(0, 1), (1, -2)]. -/
theorem c4_positions_scaling_witness :
    ((([((0:Int), some (1:Rat)), (1, some (-2))] : Ser).map Prod.fst).Pairwise
      (fun a b => a ≠ b)) ∧
    ((generate_positions [((0:Int), some (1:Rat)), (1, some (-2))]).map Prod.fst
        = ([((0:Int), some (1:Rat)), (1, some (-2))] : Ser).map Prod.fst ∧
      generate_positions [((0:Int), some (1:Rat)), (1, some (-2))]
        = ([((0:Int), some (1:Rat)), (1, some (-2))] : Ser).map
            (fun q => (q.1, q.2.map (fun v => 100 * v)))) :=
  ⟨by decide, c4_positions_scaling _ (by decide)⟩

/-- C5 (counterexample): constructing the portfolio with the negative
    initial capital -1 does not fail: it returns the fully built object,
    whose position series has already been computed. -/
theorem c5_invalid_capital_counterexample :
    portfolioInit "A" [((0:Int), some (50:Rat))] [((0:Int), some (1:Rat))] (-1) =
      Except.ok (mkMOCP "A" [((0:Int), some (50:Rat))] [((0:Int), some (1:Rat))] (-1)) ∧
    (mkMOCP "A" [((0:Int), some (50:Rat))] [((0:Int), some (1:Rat))] (-1)).positions =
      [((0:Int), some (100:Rat))] :=
  ⟨rfl, by with_unfolding_all decide⟩

/-- C5 (amended): the constructor performs no validation of
    initial_capital: for every capital value, negative ones included,
    construction succeeds (no InvalidCapital error exists in the code),
    the capital is stored as given, and positions are computed eagerly. -/
theorem c5_invalid_capital_amended (sym : String) (bars signals : Ser) (cap : Rat) :
    portfolioInit sym bars signals cap = Except.ok (mkMOCP sym bars signals cap) ∧
    (mkMOCP sym bars signals cap).initial_capital = cap ∧
    (mkMOCP sym bars signals cap).positions = generate_positions signals :=
  ⟨rfl, rfl, rfl⟩

/-- C6 (counterexample): with position index {0, 1} and price index {2, 3}
    (no intersection) backtest does not fail: it returns a table whose
    holdings are 0 and whose other columns are NaN. -/
theorem c6_misaligned_counterexample :
    backtestE (mkMOCP "A" [((2:Int), some (10:Rat)), (3, some 11)]
      [((0:Int), some (1:Rat)), (1, some 1)] 10000) =
    Except.ok
      { holdings := [(0, some 0), (1, some 0)]
        cash := [(0, none), (1, none)]
        total := [(0, none), (1, none)]
        returns := [(0, none), (1, none)]
        cum_returns := [(0, none), (1, none)]
        drawdown := [(0, none), (1, none)] } := by with_unfolding_all rfl

/-- C7 (counterexample): with non-negative prices [10, 10, 10, 200],
    non-negative capital 10000 and a constant short signal -1, the
    drawdown at the last timestamp is 19/9, which exceeds 1. -/
theorem c7_drawdown_counterexample :
    getv (backtest (mkMOCP "A"
      [((0:Int), some (10:Rat)), (1, some 10), (2, some 10), (3, some 200)]
      [((0:Int), some (-1:Rat)), (1, some (-1)), (2, some (-1)), (3, some (-1))]
      10000)).drawdown 3 = some (19/9) ∧ ¬ ((19:Rat)/9 ≤ 1) := by
  constructor
  · with_unfolding_all decide
  · norm_num

/-- C9 (counterexample): a missing (NaN) signal value does not become the
    position 0: generate_positions propagates it as a missing position. -/
theorem c9_nan_signal_counterexample :
    generate_positions [((0:Int), some (1:Rat)), (1, none)] =
      [((0:Int), some (100:Rat)), (1, none)] ∧
    getv (generate_positions [((0:Int), some (1:Rat)), (1, none)]) 1 ≠ some 0 :=
  ⟨by with_unfolding_all rfl, by with_unfolding_all decide⟩

/-- C9 (amended): a missing signal value at a timestamp yields a missing
    position value there (NaN times the lot size), not zero and not a
    propagation of the previous value. -/
theorem c9_nan_signal_amended (signals : Ser) (t : Int)
    (hd : (signals.map Prod.fst).Pairwise (fun a b => a ≠ b))
    (hm : (t, (none : Option Rat)) ∈ signals) :
    getv (generate_positions signals) t = none := by
  rw [generate_positions_eq signals hd]
  have hm2 : (t, (none : Option Rat)) ∈
      signals.map (fun q => (q.1, q.2.map (fun v => (100:Rat) * v))) := by
    have h := List.mem_map_of_mem (fun q : Int × Option Rat =>
      (q.1, q.2.map (fun v => (100:Rat) * v))) hm
    simpa using h
  exact getv_of_mem _ _ _ (by rw [map_fst_pairmap]; exact hd) hm2

/-- C9 witness: the amended theorem at the signal series [(0, 1), (1, NaN)]. -/
theorem c9_nan_signal_witness :
    ((([((0:Int), some (1:Rat)), (1, none)] : Ser).map Prod.fst).Pairwise
      (fun a b => a ≠ b)) ∧
    getv (generate_positions [((0:Int), some (1:Rat)), (1, none)]) 1 = none :=
  ⟨by decide, c9_nan_signal_amended _ 1 (by decide) (by decide)⟩

/-- C10 (confirmed): generate_positions performs no signal-domain
    validation: any numeric signal value v, also outside {-1, 0, 1}, is
    silently scaled to the position 100 * v, and construction never
    produces an InvalidSignalValue error. -/
theorem c10_pass_through (sym : String) (bars signals : Ser) (cap : Rat)
    (t : Int) (v : Rat)
    (hd : (signals.map Prod.fst).Pairwise (fun a b => a ≠ b))
    (hm : (t, some v) ∈ signals) :
    ∃ p, portfolioInit sym bars signals cap = Except.ok p ∧
      getv p.positions t = some (100 * v) := by
  refine ⟨mkMOCP sym bars signals cap, rfl, ?_⟩
  show getv (generate_positions signals) t = some (100 * v)
  rw [generate_positions_eq signals hd]
  have hm2 : (t, some ((100:Rat) * v)) ∈
      signals.map (fun q => (q.1, q.2.map (fun v => (100:Rat) * v))) := by
    have h := List.mem_map_of_mem (fun q : Int × Option Rat =>
      (q.1, q.2.map (fun v => (100:Rat) * v))) hm
    simpa using h
  exact getv_of_mem _ _ _ (by rw [map_fst_pairmap]; exact hd) hm2

/-- C10 witness: the out-of-domain signal value 5 is scaled to the
    position 500 with no error. -/
theorem c10_pass_through_witness :
    ((([((0:Int), some (5:Rat))] : Ser).map Prod.fst).Pairwise (fun a b => a ≠ b)) ∧
    (∃ p, portfolioInit "A" [] [((0:Int), some (5:Rat))] 10000 = Except.ok p ∧
      getv p.positions 0 = some (100 * 5)) :=
  ⟨by decide, c10_pass_through "A" [] _ 10000 0 5 (by decide) (by with_unfolding_all decide)⟩

theorem btHdf_none (p : MarketOnClosePortfolio)
    (hdisj : ∀ t ∈ p.positions.map Prod.fst, t ∉ p.barsClose.map Prod.fst) :
    ∀ q ∈ btHdf p, q.2 = none := by
  intro q hq
  unfold btHdf alignOp at hq
  obtain ⟨t, ht, rfl⟩ := List.mem_map.1 hq
  rcases (mem_unionIdx t _ _).1 ht with h1 | h2
  · rw [getv_not_mem p.barsClose t (hdisj t h1)]
    cases getv p.positions t <;> rfl
  · have hnp : t ∉ p.positions.map Prod.fst := fun hmem => hdisj t hmem h2
    rw [getv_not_mem p.positions t hnp]
    cases getv p.barsClose t <;> rfl

theorem btHoldings_zero (p : MarketOnClosePortfolio)
    (hdisj : ∀ t ∈ p.positions.map Prod.fst, t ∉ p.barsClose.map Prod.fst) :
    ∀ q ∈ btHoldings p, q.2 = some 0 := by
  intro q hq
  unfold btHoldings at hq
  obtain ⟨t, ht, rfl⟩ := List.mem_map.1 hq
  have hall : ∀ r ∈ btHsum p, r.2 = some 0 := by
    intro r hr
    unfold btHsum at hr
    obtain ⟨q2, hq2, rfl⟩ := List.mem_map.1 hr
    rw [btHdf_none p hdisj q2 hq2]
    rfl
  have hfst2 : (btHsum p).map Prod.fst = (btHdf p).map Prod.fst := by
    unfold btHsum
    rw [List.map_map]
    rfl
  have hmem : t ∈ (btHsum p).map Prod.fst := by
    rw [hfst2]
    unfold btHdf
    rw [fst_alignOp]
    exact (mem_unionIdx t _ _).2 (Or.inl ht)
  exact getv_const _ (some 0) hall t hmem

theorem btCashAligned_none (p : MarketOnClosePortfolio)
    (hdisj : ∀ t ∈ p.positions.map Prod.fst, t ∉ p.barsClose.map Prod.fst) :
    ∀ q ∈ alignOp omul (diff1 p.positions) p.barsClose, q.2 = none := by
  intro q hq
  unfold alignOp at hq
  obtain ⟨t, ht, rfl⟩ := List.mem_map.1 hq
  rcases (mem_unionIdx t _ _).1 ht with h1 | h2
  · rw [fst_diff1] at h1
    rw [getv_not_mem p.barsClose t (hdisj t h1)]
    cases getv (diff1 p.positions) t <;> rfl
  · have hnp : t ∉ (diff1 p.positions).map Prod.fst := by
      rw [fst_diff1]
      exact fun hm => hdisj t hm h2
    rw [getv_not_mem _ t hnp]
    cases getv p.barsClose t <;> rfl

theorem btCash_none (p : MarketOnClosePortfolio)
    (hdisj : ∀ t ∈ p.positions.map Prod.fst, t ∉ p.barsClose.map Prod.fst) :
    ∀ q ∈ btCash p, q.2 = none := by
  have hcc : ∀ q ∈ btCashCum p, q.2 = none := by
    unfold btCashCum cumsumSer
    rw [cumsumAux_none _ (btCashAligned_none p hdisj)]
    exact btCashAligned_none p hdisj
  intro q hq
  unfold btCash at hq
  obtain ⟨t, _, rfl⟩ := List.mem_map.1 hq
  rw [getv_all_none _ hcc t]
  rfl

theorem btTotal_none (p : MarketOnClosePortfolio)
    (hdisj : ∀ t ∈ p.positions.map Prod.fst, t ∉ p.barsClose.map Prod.fst) :
    ∀ q ∈ btTotal p, q.2 = none := by
  intro q hq
  rw [btTotal_map] at hq
  obtain ⟨t, _, rfl⟩ := List.mem_map.1 hq
  rw [getv_all_none _ (btCash_none p hdisj) t]
  cases getv (btHoldings p) t <;> rfl

theorem btReturns_none (p : MarketOnClosePortfolio)
    (hdisj : ∀ t ∈ p.positions.map Prod.fst, t ∉ p.barsClose.map Prod.fst) :
    ∀ q ∈ btReturns p, q.2 = none := by
  intro q hq
  unfold btReturns pctChange at hq
  rw [ffill_none _ (btTotal_none p hdisj)] at hq
  obtain ⟨c, hc, prev, rfl⟩ := mem_zip_shape (fun c p => opct c.2 p) _ _ q hq
  rw [btTotal_none p hdisj c hc]
  cases prev <;> rfl

theorem btCumRet_none (p : MarketOnClosePortfolio)
    (hdisj : ∀ t ∈ p.positions.map Prod.fst, t ∉ p.barsClose.map Prod.fst) :
    ∀ q ∈ btCumRet p, q.2 = none := by
  have h1 : ∀ q ∈ (btReturns p).map (fun q => (q.1, q.2.map (fun x => 1 + x))),
      q.2 = none := by
    intro q hq
    obtain ⟨q2, hq2, rfl⟩ := List.mem_map.1 hq
    rw [btReturns_none p hdisj q2 hq2]
    rfl
  unfold btCumRet cumprodSer
  rw [cumprodAux_none _ h1]
  exact h1

theorem btDrawdown_none (p : MarketOnClosePortfolio)
    (hdisj : ∀ t ∈ p.positions.map Prod.fst, t ∉ p.barsClose.map Prod.fst) :
    ∀ q ∈ btDrawdown p, q.2 = none := by
  intro q hq
  unfold btDrawdown alignOp at hq
  obtain ⟨t, _, rfl⟩ := List.mem_map.1 hq
  rw [getv_all_none _ (btCumRet_none p hdisj) t]
  cases getv (cummaxSer (btCumRet p)) t <;> rfl

set_option maxHeartbeats 1600000 in
/-- C6 (amended): backtest never raises; when the position and price
    indices do not intersect (which includes an entirely empty signal
    series) it returns a table whose holdings column is identically 0
    (an all-NaN product row sums to 0) and whose cash, total, returns,
    cum_returns and drawdown columns are NaN at every timestamp. -/
theorem c6_misaligned_amended (sym : String) (bars signals : Ser) (cap : Rat)
    (hdisj : ∀ t ∈ signals.map Prod.fst, t ∉ bars.map Prod.fst) :
    ∃ ec, backtestE (mkMOCP sym bars signals cap) = Except.ok ec ∧
      (∀ q ∈ ec.holdings, q.2 = some 0) ∧
      (∀ q ∈ ec.cash, q.2 = none) ∧
      (∀ q ∈ ec.total, q.2 = none) ∧
      (∀ q ∈ ec.returns, q.2 = none) ∧
      (∀ q ∈ ec.cum_returns, q.2 = none) ∧
      (∀ q ∈ ec.drawdown, q.2 = none) := by
  have hd2 : ∀ t ∈ (mkMOCP sym bars signals cap).positions.map Prod.fst,
      t ∉ (mkMOCP sym bars signals cap).barsClose.map Prod.fst := by
    intro t ht
    have hps : (mkMOCP sym bars signals cap).positions = generate_positions signals := rfl
    rw [hps, fst_generate_positions] at ht
    exact hdisj t ht
  exact ⟨backtest (mkMOCP sym bars signals cap), rfl,
    btHoldings_zero (mkMOCP sym bars signals cap) hd2,
    btCash_none (mkMOCP sym bars signals cap) hd2,
    btTotal_none (mkMOCP sym bars signals cap) hd2,
    btReturns_none (mkMOCP sym bars signals cap) hd2,
    btCumRet_none (mkMOCP sym bars signals cap) hd2,
    btDrawdown_none (mkMOCP sym bars signals cap) hd2⟩

/-- C6 witness: the amended theorem at position index {0, 1} and price
    index {2, 3}. -/
theorem c6_misaligned_witness :
    (∀ t ∈ ([((0:Int), some (1:Rat)), (1, some 1)] : Ser).map Prod.fst,
      t ∉ ([((2:Int), some (10:Rat)), (3, some 11)] : Ser).map Prod.fst) ∧
    (∃ ec, backtestE (mkMOCP "A" [((2:Int), some (10:Rat)), (3, some 11)]
        [((0:Int), some (1:Rat)), (1, some 1)] 10000) = Except.ok ec ∧
      (∀ q ∈ ec.holdings, q.2 = some 0) ∧
      (∀ q ∈ ec.cash, q.2 = none) ∧
      (∀ q ∈ ec.total, q.2 = none) ∧
      (∀ q ∈ ec.returns, q.2 = none) ∧
      (∀ q ∈ ec.cum_returns, q.2 = none) ∧
      (∀ q ∈ ec.drawdown, q.2 = none)) :=
  ⟨by decide, c6_misaligned_amended "A" _ _ 10000 (by decide)⟩

theorem fst_btTotal (p : MarketOnClosePortfolio) :
    (btTotal p).map Prod.fst = p.positions.map Prod.fst := by
  rw [btTotal_map]
  exact map_fst_pair _ _

theorem fst_btReturns (p : MarketOnClosePortfolio) :
    (btReturns p).map Prod.fst = p.positions.map Prod.fst := by
  unfold btReturns
  rw [fst_pctChange, fst_btTotal]

theorem fst_btCumRet (p : MarketOnClosePortfolio) :
    (btCumRet p).map Prod.fst = p.positions.map Prod.fst := by
  unfold btCumRet cumprodSer
  rw [fst_cumprodAux, List.map_map]
  exact fst_btReturns p

theorem btDrawdown_zip (p : MarketOnClosePortfolio)
    (hd : (p.positions.map Prod.fst).Pairwise (fun a b => a ≠ b)) :
    btDrawdown p = List.zipWith (fun a b => (a.1, ddOp a.2 b.2))
      (btCumRet p) (cummaxAux none (btCumRet p)) := by
  unfold btDrawdown
  have hfst : (btCumRet p).map Prod.fst = (cummaxSer (btCumRet p)).map Prod.fst := by
    unfold cummaxSer
    rw [fst_cummaxAux]
  have hzip := alignOp_eq_zipWith ddOp (btCumRet p) (cummaxSer (btCumRet p)) hfst
    (by rw [fst_btCumRet]; exact hd)
  rw [hzip]
  rfl

theorem odiv_some (x y : Rat) :
    odiv (some x) (some y) = if y = 0 then none else some (x / y) := rfl

theorem ddOp_some (x y : Rat) (hy : y ≠ 0) :
    ddOp (some x) (some y) = some (1 - x / y) := by
  unfold ddOp
  rw [odiv_some, if_neg hy]
  rfl

theorem ddOp_some_bound (x M d : Rat) (hx : 0 < x) (hM : 0 < M) (hxM : x ≤ M)
    (hd : ddOp (some x) (some M) = some d) : 0 ≤ d ∧ d ≤ 1 := by
  rw [ddOp_some x M (ne_of_gt hM)] at hd
  obtain rfl := (Option.some.inj hd).symm
  constructor
  · have h1 : x / M ≤ 1 := (div_le_one hM).2 hxM
    linarith
  · have h2 : 0 < x / M := div_pos hx hM
    linarith

theorem ddOp_some_peak (x : Rat) (hx : x ≠ 0) : ddOp (some x) (some x) = some 0 := by
  rw [ddOp_some x x hx, div_self hx]
  norm_num

theorem dd_bound_aux : ∀ (c : Ser) (acc : Option Rat),
    (∀ m, acc = some m → 0 < m) →
    (∀ q ∈ c, ∀ x, q.2 = some x → 0 < x) →
    ∀ q ∈ List.zipWith (fun a b => (a.1, ddOp a.2 b.2)) c (cummaxAux acc c),
      ∀ d, q.2 = some d → 0 ≤ d ∧ d ≤ 1 := by
  intro c
  induction c with
  | nil =>
    intro acc _ _ q hq
    simp at hq
  | cons q0 rest ih =>
    intro acc hacc hpos q hq
    obtain ⟨t, v⟩ := q0
    cases v with
    | none =>
      simp only [cummaxAux, List.zipWith_cons_cons, List.mem_cons] at hq
      rcases hq with h1 | h2
      · intro d hd
        rw [h1] at hd
        simp [ddOp, odiv] at hd
      · exact ih acc hacc (fun r hr => hpos r (List.mem_cons_of_mem _ hr)) q h2
    | some x =>
      have hx : 0 < x := hpos (t, some x) (List.mem_cons_self _ _) x rfl
      cases acc with
      | none =>
        simp only [cummaxAux, List.zipWith_cons_cons, List.mem_cons] at hq
        rcases hq with h1 | h2
        · intro d hd
          rw [h1] at hd
          exact ddOp_some_bound x x d hx hx le_rfl hd
        · exact ih (some x) (fun m hm => by cases hm; exact hx)
            (fun r hr => hpos r (List.mem_cons_of_mem _ hr)) q h2
      | some a =>
        have ha : 0 < a := hacc a rfl
        simp only [cummaxAux, List.zipWith_cons_cons, List.mem_cons] at hq
        rcases hq with h1 | h2
        · intro d hd
          rw [h1] at hd
          exact ddOp_some_bound x (max a x) d hx (lt_max_of_lt_right hx)
            (le_max_right a x) hd
        · exact ih (some (max a x))
            (fun m hm => by cases hm; exact lt_max_of_lt_right hx)
            (fun r hr => hpos r (List.mem_cons_of_mem _ hr)) q h2

theorem dd_peak_aux : ∀ (c : Ser) (acc : Option Rat) (i : Nat) (x : Rat),
    (∀ q ∈ c, ∀ y, q.2 = some y → 0 < y) →
    (∀ m, acc = some m → m ≤ x) →
    (∀ j, j ≤ i → ∀ q2, c.get? j = some q2 → ∀ y, q2.2 = some y → y ≤ x) →
    ∀ q, c.get? i = some q → q.2 = some x →
    ∀ r, (List.zipWith (fun a b => (a.1, ddOp a.2 b.2)) c (cummaxAux acc c)).get? i
      = some r → r.2 = some 0 := by
  intro c
  induction c with
  | nil =>
    intro acc i x _ _ _ q hq
    simp at hq
  | cons q0 rest ih =>
    intro acc i x hpos hacc hj q hq hqx r hr
    obtain ⟨t, v⟩ := q0
    cases i with
    | zero =>
      simp only [List.get?_cons_zero, Option.some.injEq] at hq
      subst hq
      simp only at hqx
      subst hqx
      have hx0 : 0 < x := hpos (t, some x) (List.mem_cons_self _ _) x rfl
      cases acc with
      | none =>
        simp only [cummaxAux, List.zipWith_cons_cons, List.get?_cons_zero,
          Option.some.injEq] at hr
        subst hr
        exact ddOp_some_peak x (ne_of_gt hx0)
      | some a =>
        have hax : a ≤ x := hacc a rfl
        simp only [cummaxAux, List.zipWith_cons_cons, List.get?_cons_zero,
          Option.some.injEq] at hr
        subst hr
        show ddOp (some x) (some (max a x)) = some 0
        rw [max_eq_right hax]
        exact ddOp_some_peak x (ne_of_gt hx0)
    | succ i2 =>
      simp only [List.get?_cons_succ] at hq
      have hj2 : ∀ j, j ≤ i2 → ∀ q2, rest.get? j = some q2 → ∀ y, q2.2 = some y → y ≤ x := by
        intro j hjle q2 hq2 y hy
        exact hj (j + 1) (by omega) q2 (by simpa using hq2) y hy
      cases v with
      | none =>
        simp only [cummaxAux, List.zipWith_cons_cons, List.get?_cons_succ] at hr
        exact ih acc i2 x (fun r2 hr2 => hpos r2 (List.mem_cons_of_mem _ hr2))
          hacc hj2 q hq hqx r hr
      | some y0 =>
        have hy0x : y0 ≤ x := hj 0 (by omega) (t, some y0) (by simp) y0 rfl
        cases acc with
        | none =>
          simp only [cummaxAux, List.zipWith_cons_cons, List.get?_cons_succ] at hr
          exact ih (some y0) i2 x (fun r2 hr2 => hpos r2 (List.mem_cons_of_mem _ hr2))
            (fun m hm => by cases hm; exact hy0x) hj2 q hq hqx r hr
        | some a =>
          have hax : a ≤ x := hacc a rfl
          simp only [cummaxAux, List.zipWith_cons_cons, List.get?_cons_succ] at hr
          exact ih (some (max a y0)) i2 x
            (fun r2 hr2 => hpos r2 (List.mem_cons_of_mem _ hr2))
            (fun m hm => by cases hm; exact max_le hax hy0x) hj2 q hq hqx r hr

/-- C7 (amended): whenever every defined cum_returns value is positive
    (which rules out the equity turning non-positive, as a short position
    under rising prices can make it), every defined drawdown value lies in
    [0, 1], and the drawdown is 0 at any timestamp whose cum_returns value
    is at or above every defined cum_returns value up to that timestamp. -/
theorem c7_drawdown_amended (p : MarketOnClosePortfolio)
    (hdist : (p.positions.map Prod.fst).Pairwise (fun a b => a ≠ b))
    (hpos : ∀ q ∈ (backtest p).cum_returns, ∀ x, q.2 = some x → 0 < x) :
    (∀ q ∈ (backtest p).drawdown, ∀ d, q.2 = some d → 0 ≤ d ∧ d ≤ 1) ∧
    (∀ (i : Nat) (x : Rat) q, (backtest p).cum_returns.get? i = some q → q.2 = some x →
      (∀ j, j ≤ i → ∀ q2, (backtest p).cum_returns.get? j = some q2 →
        ∀ y, q2.2 = some y → y ≤ x) →
      ∀ r, (backtest p).drawdown.get? i = some r → r.2 = some 0) := by
  have hzip : (backtest p).drawdown = List.zipWith (fun a b => (a.1, ddOp a.2 b.2))
      (btCumRet p) (cummaxAux none (btCumRet p)) := btDrawdown_zip p hdist
  have hpos2 : ∀ q ∈ btCumRet p, ∀ x, q.2 = some x → 0 < x := hpos
  constructor
  · intro q hq
    rw [hzip] at hq
    exact dd_bound_aux (btCumRet p) none (fun m hm => by cases hm) hpos2 q hq
  · intro i x q hq hqx hj r hr
    rw [hzip] at hr
    exact dd_peak_aux (btCumRet p) none i x hpos2 (fun m hm => by cases hm)
      hj q hq hqx r hr

/-- C7 witness: the amended theorem on a three-period long-only run
    (prices 50, 55, 60; signal 1), whose only defined cum_returns value is
    32/31 and whose only defined drawdown value is 0. -/
theorem c7_drawdown_witness :
    (∀ q ∈ (backtest (mkMOCP "A"
        [((0:Int), some (50:Rat)), (1, some 55), (2, some 60)]
        [((0:Int), some (1:Rat)), (1, some 1), (2, some 1)] 10000)).cum_returns,
      ∀ x, q.2 = some x → 0 < x) ∧
    ((∀ q ∈ (backtest (mkMOCP "A"
        [((0:Int), some (50:Rat)), (1, some 55), (2, some 60)]
        [((0:Int), some (1:Rat)), (1, some 1), (2, some 1)] 10000)).drawdown,
      ∀ d, q.2 = some d → 0 ≤ d ∧ d ≤ 1) ∧
    (∀ (i : Nat) (x : Rat) q, (backtest (mkMOCP "A"
        [((0:Int), some (50:Rat)), (1, some 55), (2, some 60)]
        [((0:Int), some (1:Rat)), (1, some 1), (2, some 1)] 10000)).cum_returns.get? i
          = some q → q.2 = some x →
      (∀ j, j ≤ i → ∀ q2, (backtest (mkMOCP "A"
        [((0:Int), some (50:Rat)), (1, some 55), (2, some 60)]
        [((0:Int), some (1:Rat)), (1, some 1), (2, some 1)] 10000)).cum_returns.get? j
          = some q2 → ∀ y, q2.2 = some y → y ≤ x) →
      ∀ r, (backtest (mkMOCP "A"
        [((0:Int), some (50:Rat)), (1, some 55), (2, some 60)]
        [((0:Int), some (1:Rat)), (1, some 1), (2, some 1)] 10000)).drawdown.get? i
          = some r → r.2 = some 0)) := by
  have hpos : ∀ q ∈ (backtest (mkMOCP "A"
      [((0:Int), some (50:Rat)), (1, some 55), (2, some 60)]
      [((0:Int), some (1:Rat)), (1, some 1), (2, some 1)] 10000)).cum_returns,
      ∀ x, q.2 = some x → 0 < x := by
    intro q hq
    have hc : (backtest (mkMOCP "A"
        [((0:Int), some (50:Rat)), (1, some 55), (2, some 60)]
        [((0:Int), some (1:Rat)), (1, some 1), (2, some 1)] 10000)).cum_returns
        = [((0:Int), none), (1, none), (2, some ((32:Rat)/31))] := by
      with_unfolding_all rfl
    rw [hc] at hq
    simp only [List.mem_cons, List.not_mem_nil, or_false] at hq
    rcases hq with rfl | rfl | rfl
    · intro x hxq
      simp at hxq
    · intro x hxq
      simp at hxq
    · intro x hxq
      simp only [Option.some.injEq] at hxq
      subst hxq
      norm_num
  exact ⟨hpos, c7_drawdown_amended _ (by decide) hpos⟩

/-- Shape of a column that is NaN at the first timestamp and a constant
    afterwards (used to state the zero-signal behaviour). -/
def firstNone (l : List Int) (c : Rat) : Ser :=
  match l with
  | [] => []
  | t :: rest => (t, none) :: rest.map (fun u => (u, some c))

/-- Shape of a column that is NaN at the first two timestamps and a
    constant afterwards. -/
def firstTwoNone (l : List Int) (c : Rat) : Ser :=
  match l with
  | [] => []
  | [t] => [(t, none)]
  | t :: u :: rest => (t, none) :: (u, none) :: rest.map (fun r => (r, some c))

theorem fst_firstNone (l : List Int) (c : Rat) :
    (firstNone l c).map Prod.fst = l := by
  cases l with
  | nil => rfl
  | cons t rest =>
    simp only [firstNone, List.map_cons, List.map_map]
    rw [show rest.map (Prod.fst ∘ fun u => (u, some c)) = rest.map (fun u => u) from rfl]
    rw [List.map_id']

theorem mem_firstNone (l : List Int) (c : Rat) :
    ∀ q ∈ firstNone l c, q.2 = none ∨ q.2 = some c := by
  intro q hq
  cases l with
  | nil => simp [firstNone] at hq
  | cons t rest =>
    simp only [firstNone, List.mem_cons] at hq
    rcases hq with h | h
    · left
      rw [h]
    · right
      obtain ⟨u, _, rfl⟩ := List.mem_map.1 h
      rfl

theorem zipWith_map_same {α β γ : Type} (l : List α) (g h : α → β) (f : β → β → γ) :
    List.zipWith f (l.map g) (l.map h) = l.map (fun a => f (g a) (h a)) := by
  induction l with
  | nil => rfl
  | cons x xs ih => simp [ih]

theorem zip_osub_zero (l : List Int) : ∀ (ps : List (Option Rat)),
    (∀ p ∈ ps, p = some (0:Rat)) → l.length ≤ ps.length →
    List.zipWith (fun (cur : Int × Option Rat) prev => (cur.1, osub cur.2 prev))
      (l.map (fun u => (u, some (0:Rat)))) ps
      = l.map (fun u => (u, some (0:Rat))) := by
  induction l with
  | nil => intro ps _ _; simp
  | cons x xs ih =>
    intro ps hall hlen
    cases ps with
    | nil => simp at hlen
    | cons p pt =>
      have hp : p = some 0 := hall p (List.mem_cons_self _ _)
      subst hp
      simp only [List.map_cons, List.zipWith_cons_cons]
      have hval : osub (some (0:Rat)) (some 0) = some 0 := by
        simp [osub]
      rw [hval, ih pt (fun r hr => hall r (List.mem_cons_of_mem _ hr)) (by simpa using hlen)]

theorem diff1_const_zero (l : List Int) :
    diff1 (l.map (fun t => (t, some (0:Rat)))) = firstNone l 0 := by
  cases l with
  | nil => rfl
  | cons t rest =>
    unfold diff1 firstNone
    simp only [List.map_cons, List.zipWith_cons_cons]
    rw [show osub (some (0:Rat)) none = none from rfl]
    congr 1
    apply zip_osub_zero
    · intro p hp
      rcases List.mem_cons.1 hp with h | h
      · exact h
      · obtain ⟨q, _, rfl⟩ := List.mem_map.1 h
        obtain ⟨u, _, rfl⟩ := List.mem_map.1 (by assumption : q ∈ rest.map (fun u => (u, some (0:Rat))))
        rfl
    · simp

theorem cumsum_firstNone (l : List Int) :
    cumsumAux 0 (firstNone l 0) = firstNone l 0 := by
  cases l with
  | nil => rfl
  | cons t rest =>
    simp only [firstNone, cumsumAux]
    rw [cumsumAux_zeros]

theorem map_sub_firstNone (l : List Int) (c : Rat) :
    (firstNone l 0).map (fun q => (q.1, q.2.map (fun x => c - x))) = firstNone l c := by
  cases l with
  | nil => rfl
  | cons t rest =>
    simp only [firstNone, List.map_cons, Option.map_none', List.map_map]
    congr 1
    apply List.map_congr_left
    intro u _
    simp [Function.comp, sub_zero]

theorem pct_firstNone (l : List Int) (c : Rat) (hc : c ≠ 0) :
    pctChange (firstNone l c) = firstTwoNone l 0 := by
  cases l with
  | nil => rfl
  | cons t rest =>
    cases rest with
    | nil => rfl
    | cons u rest2 =>
      unfold pctChange firstNone firstTwoNone
      have hff : ffillVals none
          ((t, (none : Option Rat)) :: (u, some c) :: rest2.map (fun r => (r, some c)))
          = (t, none) :: (u, some c) :: rest2.map (fun r => (r, some c)) := by
        simp only [ffillVals]
        rw [ffill_all_some _ _ (by
          intro q hq
          obtain ⟨r, _, rfl⟩ := List.mem_map.1 hq
          rfl)]
      simp only [List.map_cons]
      rw [hff]
      simp only [List.map_cons, List.zipWith_cons_cons]
      rw [show opct (none : Option Rat) none = none from rfl,
        show opct (some c) none = none from rfl]
      congr 2
      apply zip_pct_const c hc
      · intro p hp
        rcases List.mem_cons.1 hp with h | h
        · exact h
        · obtain ⟨q, hq, rfl⟩ := List.mem_map.1 h
          obtain ⟨r, _, rfl⟩ := List.mem_map.1 hq
          rfl
      · simp

theorem cumprod_firstTwoNone (l : List Int) :
    cumprodAux 1 ((firstTwoNone l (0:Rat)).map (fun q => (q.1, q.2.map (fun x => 1 + x))))
      = firstTwoNone l 1 := by
  cases l with
  | nil => rfl
  | cons t rest =>
    cases rest with
    | nil => rfl
    | cons u rest2 =>
      simp only [firstTwoNone, List.map_cons, Option.map_none', List.map_map, cumprodAux]
      have hmap : rest2.map ((fun (q : Int × Option Rat) => (q.1, q.2.map (fun x => (1:Rat) + x)))
          ∘ (fun r => (r, some (0:Rat)))) = rest2.map (fun r => (r, some (1:Rat))) := by
        apply List.map_congr_left
        intro r _
        simp [Function.comp]
      rw [hmap, cumprodAux_ones]

theorem cummaxAux_none_const (l : List Int) (m : Rat) :
    cummaxAux none (l.map (fun t => (t, some m))) = l.map (fun t => (t, some m)) := by
  cases l with
  | nil => rfl
  | cons t rest =>
    simp only [List.map_cons, cummaxAux]
    rw [cummaxAux_const]

theorem cummax_firstTwoNone (l : List Int) :
    cummaxAux none (firstTwoNone l 1) = firstTwoNone l 1 := by
  cases l with
  | nil => rfl
  | cons t rest =>
    cases rest with
    | nil => rfl
    | cons u rest2 =>
      simp only [firstTwoNone, cummaxAux]
      rw [cummaxAux_none_const]

/-- C3 (counterexample): for the all-zero signal on two timestamps with
    prices [50, 55] and capital 10000, cash at the first timestamp is NaN
    rather than the claimed initial_capital (the first-row position delta
    is NaN), and cum_returns is likewise NaN at the first two timestamps. -/
theorem c3_zero_signal_counterexample :
    getv (backtest (mkMOCP "A" [((0:Int), some (50:Rat)), (1, some 55)]
      [((0:Int), some (0:Rat)), (1, some 0)] 10000)).cash 0 = none ∧
    getv (backtest (mkMOCP "A" [((0:Int), some (50:Rat)), (1, some 55)]
      [((0:Int), some (0:Rat)), (1, some 0)] 10000)).cash 0 ≠ some 10000 ∧
    getv (backtest (mkMOCP "A" [((0:Int), some (50:Rat)), (1, some 55)]
      [((0:Int), some (0:Rat)), (1, some 0)] 10000)).cum_returns 0 ≠ some 1 := by
  refine ⟨?_, ?_, ?_⟩ <;> with_unfolding_all decide

set_option maxHeartbeats 1600000 in
/-- C3 (amended): for an identically-zero signal on a shared ascending
    index with defined prices and nonzero capital, positions and holdings
    are identically 0; cash and total are NaN at the first timestamp (the
    first position delta is NaN) and equal to initial_capital afterwards;
    returns, cum_returns and drawdown are NaN at the first two timestamps
    and 0, 1, 0 respectively afterwards. -/
theorem c3_zero_signal_amended (sym : String) (bars signals : Ser) (cap : Rat)
    (hidx : bars.map Prod.fst = signals.map Prod.fst)
    (hdist : (signals.map Prod.fst).Pairwise (fun a b => a ≠ b))
    (hz : ∀ q ∈ signals, q.2 = some 0)
    (hbd : ∀ q ∈ bars, q.2.isSome)
    (hcap : cap ≠ 0) :
    (mkMOCP sym bars signals cap).positions
      = (signals.map Prod.fst).map (fun t => (t, some (0:Rat))) ∧
    (backtest (mkMOCP sym bars signals cap)).holdings
      = (signals.map Prod.fst).map (fun t => (t, some (0:Rat))) ∧
    (backtest (mkMOCP sym bars signals cap)).cash
      = firstNone (signals.map Prod.fst) cap ∧
    (backtest (mkMOCP sym bars signals cap)).total
      = firstNone (signals.map Prod.fst) cap ∧
    (backtest (mkMOCP sym bars signals cap)).returns
      = firstTwoNone (signals.map Prod.fst) 0 ∧
    (backtest (mkMOCP sym bars signals cap)).cum_returns
      = firstTwoNone (signals.map Prod.fst) 1 ∧
    (backtest (mkMOCP sym bars signals cap)).drawdown
      = firstTwoNone (signals.map Prod.fst) 0 := by
  have h1 : (mkMOCP sym bars signals cap).positions
      = (signals.map Prod.fst).map (fun t => (t, some (0:Rat))) := by
    show generate_positions signals = _
    rw [generate_positions_eq signals hdist, List.map_map]
    apply List.map_congr_left
    intro q hq
    simp only [Function.comp_apply]
    rw [hz q hq]
    norm_num
  have hposfst : (mkMOCP sym bars signals cap).positions.map Prod.fst
      = signals.map Prod.fst := fst_generate_positions signals
  have hpw : (signals.map Prod.fst).Pairwise (fun a b => a ≠ b) := hdist
  have hpvals : ∀ q ∈ (mkMOCP sym bars signals cap).positions,
      q.2 = none ∨ q.2 = some 0 := by
    intro q hq
    rw [h1] at hq
    obtain ⟨t, _, rfl⟩ := List.mem_map.1 hq
    right
    rfl
  have h2 : btHdf (mkMOCP sym bars signals cap) = (mkMOCP sym bars signals cap).positions := by
    unfold btHdf
    rw [alignOp_eq_zipWith omul _ _ (by rw [hposfst]; exact hidx.symm)
      (by rw [hposfst]; exact hpw)]
    exact zip_omul_zero _ _ (by rw [hposfst]; exact hidx.symm) hpvals hbd
  have h3 : btHsum (mkMOCP sym bars signals cap)
      = (signals.map Prod.fst).map (fun t => (t, some (0:Rat))) := by
    unfold btHsum
    rw [h2, h1, List.map_map]
    rfl
  have h4 : btHoldings (mkMOCP sym bars signals cap)
      = (signals.map Prod.fst).map (fun t => (t, some (0:Rat))) := by
    unfold btHoldings
    rw [hposfst, h3]
    have hs : ((signals.map Prod.fst).map (fun t => (t, some (0:Rat)))).map Prod.fst
        = signals.map Prod.fst := map_fst_pair _ _
    calc (signals.map Prod.fst).map
          (fun t => (t, getv ((signals.map Prod.fst).map (fun t => (t, some (0:Rat)))) t))
        = (((signals.map Prod.fst).map (fun t => (t, some (0:Rat)))).map Prod.fst).map
          (fun t => (t, getv ((signals.map Prod.fst).map (fun t => (t, some (0:Rat)))) t)) := by
          rw [hs]
      _ = (signals.map Prod.fst).map (fun t => (t, some (0:Rat))) :=
          map_fst_getv_id _ (by rw [hs]; exact hpw)
  have h5 : diff1 (mkMOCP sym bars signals cap).positions
      = firstNone (signals.map Prod.fst) 0 := by
    rw [h1]
    exact diff1_const_zero _
  have h5vals : ∀ q ∈ diff1 (mkMOCP sym bars signals cap).positions,
      q.2 = none ∨ q.2 = some 0 := by
    rw [h5]
    exact mem_firstNone _ _
  have h6 : btCashCum (mkMOCP sym bars signals cap)
      = firstNone (signals.map Prod.fst) 0 := by
    unfold btCashCum cumsumSer
    rw [alignOp_eq_zipWith omul _ _ (by rw [fst_diff1, hposfst]; exact hidx.symm)
      (by rw [fst_diff1, hposfst]; exact hpw)]
    rw [show (mkMOCP sym bars signals cap).barsClose = bars from rfl]
    rw [zip_omul_zero _ _ (by rw [fst_diff1, hposfst]; exact hidx.symm) h5vals hbd]
    rw [h5]
    exact cumsum_firstNone _
  have h7 : btCash (mkMOCP sym bars signals cap)
      = firstNone (signals.map Prod.fst) cap := by
    unfold btCash
    rw [hposfst, h6]
    have hsf : (firstNone (signals.map Prod.fst) (0:Rat)).map Prod.fst
        = signals.map Prod.fst := fst_firstNone _ _
    calc (signals.map Prod.fst).map
          (fun t => (t, (getv (firstNone (signals.map Prod.fst) 0) t).map (fun x => cap - x)))
        = ((firstNone (signals.map Prod.fst) 0).map Prod.fst).map
          (fun t => (t, (getv (firstNone (signals.map Prod.fst) 0) t).map (fun x => cap - x))) := by
          rw [hsf]
      _ = (firstNone (signals.map Prod.fst) 0).map
          (fun q => (q.1, q.2.map (fun x => cap - x))) :=
          map_fst_getv _ _ (by rw [hsf]; exact hpw)
      _ = firstNone (signals.map Prod.fst) cap := map_sub_firstNone _ cap
  have h8 : btTotal (mkMOCP sym bars signals cap)
      = firstNone (signals.map Prod.fst) cap := by
    rw [btTotal_map, hposfst, h4, h7]
    cases hcase : signals.map Prod.fst with
    | nil => rfl
    | cons t rest =>
      rw [hcase] at hpw
      simp only [List.map_cons, firstNone]
      congr 1
      · rw [getv_cons_self, getv_cons_self]
        rfl
      · apply List.map_congr_left
        intro u hu
        have hne : t ≠ u := (List.pairwise_cons.1 hpw).1 u hu
        rw [getv_cons_ne _ _ _ _ hne, getv_cons_ne _ _ _ _ hne]
        rw [getv_const (rest.map (fun v => (v, some (0:Rat)))) (some 0)
          (by intro q hq; obtain ⟨_, _, rfl⟩ := List.mem_map.1 hq; rfl) u
          (by rw [map_fst_pair]; exact hu)]
        rw [getv_const (rest.map (fun v => (v, some cap))) (some cap)
          (by intro q hq; obtain ⟨_, _, rfl⟩ := List.mem_map.1 hq; rfl) u
          (by rw [map_fst_pair]; exact hu)]
        simp [oadd]
  have h9 : btReturns (mkMOCP sym bars signals cap)
      = firstTwoNone (signals.map Prod.fst) 0 := by
    unfold btReturns
    rw [h8]
    exact pct_firstNone _ cap hcap
  have h10 : btCumRet (mkMOCP sym bars signals cap)
      = firstTwoNone (signals.map Prod.fst) 1 := by
    unfold btCumRet cumprodSer
    rw [h9]
    exact cumprod_firstTwoNone _
  have h11 : btDrawdown (mkMOCP sym bars signals cap)
      = firstTwoNone (signals.map Prod.fst) 0 := by
    rw [btDrawdown_zip _ (by rw [hposfst]; exact hpw), h10, cummax_firstTwoNone]
    cases signals.map Prod.fst with
    | nil => rfl
    | cons t rest =>
      cases rest with
      | nil => rfl
      | cons u rest2 =>
        simp only [firstTwoNone, List.zipWith_cons_cons]
        rw [show ddOp (none : Option Rat) none = none from rfl]
        congr 2
        rw [zipWith_map_same]
        apply List.map_congr_left
        intro r _
        rw [ddOp_some 1 1 one_ne_zero]
        norm_num
  exact ⟨h1, h4, h7, h8, h9, h10, h11⟩

/-- C3 witness: the amended theorem on a four-period zero-signal run with
    prices [50, 55, 60, 52] and capital 10000. -/
theorem c3_zero_signal_witness :
    (([((0:Int), some (50:Rat)), (1, some 55), (2, some 60), (3, some 52)] : Ser).map Prod.fst
      = ([((0:Int), some (0:Rat)), (1, some 0), (2, some 0), (3, some 0)] : Ser).map Prod.fst) ∧
    ((mkMOCP "A" [((0:Int), some (50:Rat)), (1, some 55), (2, some 60), (3, some 52)]
        [((0:Int), some (0:Rat)), (1, some 0), (2, some 0), (3, some 0)] 10000).positions
      = (([((0:Int), some (0:Rat)), (1, some 0), (2, some 0), (3, some 0)] : Ser).map Prod.fst).map
          (fun t => (t, some (0:Rat))) ∧
    (backtest (mkMOCP "A" [((0:Int), some (50:Rat)), (1, some 55), (2, some 60), (3, some 52)]
        [((0:Int), some (0:Rat)), (1, some 0), (2, some 0), (3, some 0)] 10000)).holdings
      = (([((0:Int), some (0:Rat)), (1, some 0), (2, some 0), (3, some 0)] : Ser).map Prod.fst).map
          (fun t => (t, some (0:Rat))) ∧
    (backtest (mkMOCP "A" [((0:Int), some (50:Rat)), (1, some 55), (2, some 60), (3, some 52)]
        [((0:Int), some (0:Rat)), (1, some 0), (2, some 0), (3, some 0)] 10000)).cash
      = firstNone (([((0:Int), some (0:Rat)), (1, some 0), (2, some 0), (3, some 0)] : Ser).map Prod.fst) 10000 ∧
    (backtest (mkMOCP "A" [((0:Int), some (50:Rat)), (1, some 55), (2, some 60), (3, some 52)]
        [((0:Int), some (0:Rat)), (1, some 0), (2, some 0), (3, some 0)] 10000)).total
      = firstNone (([((0:Int), some (0:Rat)), (1, some 0), (2, some 0), (3, some 0)] : Ser).map Prod.fst) 10000 ∧
    (backtest (mkMOCP "A" [((0:Int), some (50:Rat)), (1, some 55), (2, some 60), (3, some 52)]
        [((0:Int), some (0:Rat)), (1, some 0), (2, some 0), (3, some 0)] 10000)).returns
      = firstTwoNone (([((0:Int), some (0:Rat)), (1, some 0), (2, some 0), (3, some 0)] : Ser).map Prod.fst) 0 ∧
    (backtest (mkMOCP "A" [((0:Int), some (50:Rat)), (1, some 55), (2, some 60), (3, some 52)]
        [((0:Int), some (0:Rat)), (1, some 0), (2, some 0), (3, some 0)] 10000)).cum_returns
      = firstTwoNone (([((0:Int), some (0:Rat)), (1, some 0), (2, some 0), (3, some 0)] : Ser).map Prod.fst) 1 ∧
    (backtest (mkMOCP "A" [((0:Int), some (50:Rat)), (1, some 55), (2, some 60), (3, some 52)]
        [((0:Int), some (0:Rat)), (1, some 0), (2, some 0), (3, some 0)] 10000)).drawdown
      = firstTwoNone (([((0:Int), some (0:Rat)), (1, some 0), (2, some 0), (3, some 0)] : Ser).map Prod.fst) 0) :=
  ⟨by with_unfolding_all decide,
   c3_zero_signal_amended "A" _ _ 10000 (by with_unfolding_all decide)
     (by with_unfolding_all decide) (by with_unfolding_all decide)
     (by with_unfolding_all decide) (by norm_num)⟩

theorem mem_zip_shape2 {β : Type} (g : (Int × Option Rat) → β → Option Rat) :
    ∀ (s : List (Int × Option Rat)) (ps : List β) q,
    q ∈ List.zipWith (fun c p => (c.1, g c p)) s ps →
    ∃ c ∈ s, ∃ p ∈ ps, q = (c.1, g c p) := by
  intro s
  induction s with
  | nil => intro ps q hq; simp at hq
  | cons x xs ih =>
    intro ps q hq
    cases ps with
    | nil => simp at hq
    | cons p pt =>
      simp only [List.zipWith_cons_cons, List.mem_cons] at hq
      rcases hq with h1 | h2
      · exact ⟨x, List.mem_cons_self _ _, p, List.mem_cons_self _ _, h1⟩
      · obtain ⟨c, hc, p2, hp2, hq2⟩ := ih pt q h2
        exact ⟨c, List.mem_cons_of_mem _ hc, p2, List.mem_cons_of_mem _ hp2, hq2⟩

theorem get?_zipWith {α β γ : Type} (f : α → β → γ) :
    ∀ (as : List α) (bs : List β) (i : Nat),
    (List.zipWith f as bs).get? i =
      match as.get? i, bs.get? i with
      | some a, some b => some (f a b)
      | _, _ => none := by
  intro as
  induction as with
  | nil => intro bs i; simp
  | cons a at2 ih =>
    intro bs i
    cases bs with
    | nil => simp
    | cons b bt =>
      cases i with
      | zero => simp
      | succ i2 =>
        simp only [List.zipWith_cons_cons, List.get?_cons_succ]
        exact ih bt i2

theorem get?_tail {α : Type} (l : List α) (i : Nat) :
    l.tail.get? i = l.get? (i + 1) := by
  cases l with
  | nil => simp
  | cons x xs => simp [List.get?_cons_succ]

theorem dropna_diff1_all_some (s : Ser) (h : ∀ q ∈ s, q.2.isSome) :
    dropna (diff1 s) = List.zipWith
      (fun (cur prev : Int × Option Rat) => (cur.1, osub cur.2 prev.2)) s.tail s := by
  cases s with
  | nil => rfl
  | cons x xs =>
    unfold diff1
    simp only [List.map_cons, List.zipWith_cons_cons, List.tail_cons]
    have hx : osub x.2 none = none := by
      cases x.2 <;> rfl
    rw [hx]
    have hzip : List.zipWith (fun (cur : Int × Option Rat) prev => (cur.1, osub cur.2 prev))
        xs (x.2 :: xs.map Prod.snd)
        = List.zipWith (fun (cur prev : Int × Option Rat) => (cur.1, osub cur.2 prev.2))
          xs (x :: xs) := by
      rw [show (x :: xs : Ser) = (x :: xs : Ser) from rfl]
      rw [show x.2 :: xs.map Prod.snd = (x :: xs : Ser).map Prod.snd from rfl]
      rw [List.zipWith_map_right]
    unfold dropna
    rw [List.filter_cons]
    simp only [Option.isSome_none, Bool.false_eq_true, if_neg, ite_false]
    rw [hzip]
    apply List.filter_eq_self.2
    intro q hq
    obtain ⟨c, hc, p, hp, rfl⟩ := mem_zip_shape2 (fun c (p : Int × Option Rat) => osub c.2 p.2) xs (x :: xs) q hq
    have hcs := h c (List.mem_cons_of_mem _ hc)
    have hps := h p hp
    obtain ⟨a, ha⟩ := Option.isSome_iff_exists.1 hcs
    obtain ⟨b, hb⟩ := Option.isSome_iff_exists.1 hps
    simp [ha, hb, osub]

theorem zip_opct_pos : ∀ (l : Ser) (pv : Rat), 0 < pv →
    (∀ q ∈ l, ∃ x, q.2 = some x ∧ 0 < x) →
    ∃ out, List.zipWith (fun (cur : Int × Option Rat) prev => (cur.1, opct cur.2 prev))
        l (some pv :: l.map Prod.snd) = out ∧
      out.map Prod.fst = l.map Prod.fst ∧ ∀ q ∈ out, q.2.isSome := by
  intro l
  induction l with
  | nil =>
    intro pv _ _
    exact ⟨[], rfl, rfl, by intro q hq; simp at hq⟩
  | cons x xs ih =>
    intro pv hpv hall
    obtain ⟨a, ha, hapos⟩ := hall x (List.mem_cons_self _ _)
    obtain ⟨out, hout, hfst, hsome⟩ := ih a hapos
      (fun q hq => hall q (List.mem_cons_of_mem _ hq))
    refine ⟨(x.1, some ((a - pv) / pv)) :: out, ?_, ?_, ?_⟩
    · simp only [List.map_cons, List.zipWith_cons_cons]
      rw [ha]
      rw [show opct (some a) (some pv) = some ((a - pv) / pv) from by
        simp [opct, ne_of_gt hpv]]
      rw [← hout]
    · simp [hfst]
    · intro q hq
      rcases List.mem_cons.1 hq with h1 | h1
      · rw [h1]
        rfl
      · exact hsome q h1

theorem pct_pos_shape (c0 : Int × Option Rat) (ctail : Ser)
    (hd : ∀ q ∈ (c0 :: ctail : Ser), ∃ x, q.2 = some x ∧ 0 < x) :
    ∃ rtail, pctChange (c0 :: ctail) = (c0.1, none) :: rtail ∧
      rtail.map Prod.fst = ctail.map Prod.fst ∧ ∀ q ∈ rtail, q.2.isSome := by
  obtain ⟨a, ha, hapos⟩ := hd c0 (List.mem_cons_self _ _)
  have hsome : ∀ q ∈ (c0 :: ctail : Ser), q.2.isSome := by
    intro q hq
    obtain ⟨x, hx, _⟩ := hd q hq
    rw [hx]
    rfl
  unfold pctChange
  rw [ffill_all_some _ _ hsome]
  simp only [List.map_cons, List.zipWith_cons_cons]
  obtain ⟨out, hout, hfst, hosome⟩ := zip_opct_pos ctail a hapos
    (fun q hq => hd q (List.mem_cons_of_mem _ hq))
  refine ⟨out, ?_, hfst, hosome⟩
  rw [show opct c0.2 none = none from by cases c0.2 <;> rfl]
  rw [ha, ← hout]

theorem ewm_inv (w : Rat) (hw : 0 < w) : ∀ (s : Ser) (num den : Rat), 0 < den →
    (ewmAux w num den s).map Prod.fst = s.map Prod.fst ∧
    ∀ q ∈ ewmAux w num den s, q.2.isSome := by
  intro s
  induction s with
  | nil =>
    intro num den _
    exact ⟨rfl, by intro q hq; simp [ewmAux] at hq⟩
  | cons x xs ih =>
    intro num den hden
    obtain ⟨t, v⟩ := x
    cases v with
    | some y =>
      have hd2 : (0:Rat) < w * den + 1 := by positivity
      simp only [ewmAux, if_neg (ne_of_gt hd2)]
      obtain ⟨ihfst, ihsome⟩ := ih (w * num + y) (w * den + 1) hd2
      refine ⟨by simp only [List.map_cons, ihfst], ?_⟩
      intro q hq
      rcases List.mem_cons.1 hq with h1 | h1
      · rw [h1]
        rfl
      · exact ihsome q h1
    | none =>
      have hd2 : (0:Rat) < w * den := by positivity
      simp only [ewmAux, if_neg (ne_of_gt hd2)]
      obtain ⟨ihfst, ihsome⟩ := ih (w * num) (w * den) hd2
      refine ⟨by simp only [List.map_cons, ihfst], ?_⟩
      intro q hq
      rcases List.mem_cons.1 hq with h1 | h1
      · rw [h1]
        rfl
      · exact ihsome q h1

theorem ewm_all_some (w : Rat) (hw : 0 < w) (s : Ser) (hs : ∀ q ∈ s, q.2.isSome) :
    (ewmAux w 0 0 s).map Prod.fst = s.map Prod.fst ∧
    ∀ q ∈ ewmAux w 0 0 s, q.2.isSome := by
  cases s with
  | nil => exact ⟨rfl, by intro q hq; simp [ewmAux] at hq⟩
  | cons x xs =>
    obtain ⟨y, hy⟩ := Option.isSome_iff_exists.1 (hs x (List.mem_cons_self _ _))
    obtain ⟨t, v⟩ := x
    simp only at hy
    subst hy
    have hd2 : (0:Rat) < w * 0 + 1 := by norm_num
    simp only [ewmAux, if_neg (ne_of_gt hd2)]
    obtain ⟨ihfst, ihsome⟩ := ewm_inv w hw xs (w * 0 + y) (w * 0 + 1) hd2
    refine ⟨by simp only [List.map_cons, ihfst], ?_⟩
    intro q hq
    rcases List.mem_cons.1 hq with h1 | h1
    · rw [h1]
      rfl
    · exact ihsome q h1

theorem ewm_lead (w : Rat) (hw : 0 < w) (t : Int) (tail : Ser)
    (htail : ∀ q ∈ tail, q.2.isSome) :
    ∃ out, ewmAux w 0 0 ((t, none) :: tail) = (t, none) :: out ∧
      out.map Prod.fst = tail.map Prod.fst ∧ ∀ q ∈ out, q.2.isSome := by
  have hstep : ewmAux w 0 0 ((t, none) :: tail) = (t, none) :: ewmAux w 0 0 tail := by
    simp only [ewmAux, mul_zero, if_true, ite_true]
  obtain ⟨hfst, hsome⟩ := ewm_all_some w hw tail htail
  exact ⟨ewmAux w 0 0 tail, hstep, hfst, hsome⟩

theorem map_fst_zipWith2 {α β γ : Type} (g : (Int × α) → β → γ) :
    ∀ (s : List (Int × α)) (ps : List β), s.length ≤ ps.length →
    (List.zipWith (fun c p => (c.1, g c p)) s ps).map Prod.fst = s.map Prod.fst := by
  intro s
  induction s with
  | nil => intro ps h; simp
  | cons x xs ih =>
    intro ps h
    cases ps with
    | nil => simp at h
    | cons p pst =>
      simp only [List.zipWith_cons_cons, List.map_cons]
      rw [ih pst (by simpa using h)]

theorem len_eq_of_fst {α β : Type} (s : List (Int × α)) (t : List (Int × β))
    (h : s.map Prod.fst = t.map Prod.fst) : s.length = t.length := by
  have h2 := congrArg List.length h
  simpa using h2

/-- The index bookkeeping of the MACD crossover pipeline: with positive
    defined prices on a duplicate-free index, the boolean comparison
    series lives on the price index with its first timestamp dropped (the
    one consumed by pct_change and dropna). -/
theorem fst_macdGtList (close : Ser)
    (hpw : (close.map Prod.fst).Pairwise (fun a b => a ≠ b))
    (hd : ∀ q ∈ close, ∃ x, q.2 = some x ∧ 0 < x) :
    (macdGtList close 26 12 9).map Prod.fst = (close.map Prod.fst).drop 1 := by
  cases hc : close with
  | nil => rfl
  | cons c0 ctail =>
    subst hc
    obtain ⟨rtail, hr, hrfst, hrsome⟩ := pct_pos_shape c0 ctail hd
    have hw12 : (0:Rat) < ((12:Nat) : Rat) - 1 := by norm_num
    obtain ⟨aout, haout, hafst, hasome⟩ :=
      ewm_lead ((((12:Nat) : Rat) - 1) / (((12:Nat) : Rat) + 1)) (by norm_num)
        c0.1 rtail hrsome
    obtain ⟨bout, hbout, hbfst, hbsome⟩ :=
      ewm_lead ((((26:Nat) : Rat) - 1) / (((26:Nat) : Rat) + 1)) (by norm_num)
        c0.1 rtail hrsome
    have ha : ewmMean 12 (pctChange (c0 :: ctail)) = (c0.1, none) :: aout := by
      unfold ewmMean
      rw [hr]
      exact haout
    have hb : ewmMean 26 (pctChange (c0 :: ctail)) = (c0.1, none) :: bout := by
      unfold ewmMean
      rw [hr]
      exact hbout
    have hafst2 : (ewmMean 12 (pctChange (c0 :: ctail))).map Prod.fst
        = c0.1 :: ctail.map Prod.fst := by
      rw [ha, List.map_cons, hafst, hrfst]
    have hbfst2 : (ewmMean 26 (pctChange (c0 :: ctail))).map Prod.fst
        = c0.1 :: ctail.map Prod.fst := by
      rw [hb, List.map_cons, hbfst, hrfst]
    have hpwc : (c0.1 :: ctail.map Prod.fst).Pairwise (fun a b => a ≠ b) := by
      simpa using hpw
    have hlen : aout.length = bout.length :=
      len_eq_of_fst _ _ (by rw [hafst, hbfst])
    have hmac : dropna (alignOp osub (ewmMean 12 (pctChange (c0 :: ctail)))
        (ewmMean 26 (pctChange (c0 :: ctail))))
        = List.zipWith (fun (a b : Int × Option Rat) => (a.1, osub a.2 b.2)) aout bout := by
      rw [alignOp_eq_zipWith osub _ _ (by rw [hafst2, hbfst2]) (by rw [hafst2]; exact hpwc)]
      rw [ha, hb]
      simp only [List.zipWith_cons_cons]
      rw [show osub (none : Option Rat) none = none from rfl]
      unfold dropna
      rw [List.filter_cons]
      simp only [Option.isSome_none, Bool.false_eq_true, if_false, ite_false]
      apply List.filter_eq_self.2
      intro q hq
      obtain ⟨c, hcm, p, hpm, rfl⟩ := mem_zip_shape2
        (fun (c p : Int × Option Rat) => osub c.2 p.2) aout bout q hq
      obtain ⟨xa, hxa⟩ := Option.isSome_iff_exists.1 (hasome c hcm)
      obtain ⟨xb, hxb⟩ := Option.isSome_iff_exists.1 (hbsome p hpm)
      simp [hxa, hxb, osub]
    have hmacfst : (List.zipWith (fun (a b : Int × Option Rat) => (a.1, osub a.2 b.2))
        aout bout).map Prod.fst = ctail.map Prod.fst := by
      rw [map_fst_zipWith2 (fun (c p : Int × Option Rat) => osub c.2 p.2) aout bout
        (le_of_eq hlen), hafst, hrfst]
    have hmacsome : ∀ q ∈ List.zipWith (fun (a b : Int × Option Rat) => (a.1, osub a.2 b.2))
        aout bout, q.2.isSome := by
      intro q hq
      obtain ⟨c, hcm, p, hpm, rfl⟩ := mem_zip_shape2
        (fun (c p : Int × Option Rat) => osub c.2 p.2) aout bout q hq
      obtain ⟨xa, hxa⟩ := Option.isSome_iff_exists.1 (hasome c hcm)
      obtain ⟨xb, hxb⟩ := Option.isSome_iff_exists.1 (hbsome p hpm)
      simp [hxa, hxb, osub]
    obtain ⟨hsfst, hssome⟩ := ewm_all_some ((((9:Nat) : Rat) - 1) / (((9:Nat) : Rat) + 1))
      (by norm_num)
      (List.zipWith (fun (a b : Int × Option Rat) => (a.1, osub a.2 b.2)) aout bout)
      hmacsome
    have hsfst2 : (ewmMean 9 (List.zipWith
        (fun (a b : Int × Option Rat) => (a.1, osub a.2 b.2)) aout bout)).map Prod.fst
        = (List.zipWith (fun (a b : Int × Option Rat) => (a.1, osub a.2 b.2))
          aout bout).map Prod.fst := hsfst
    have hsig : dropna (ewmMean 9 (List.zipWith
        (fun (a b : Int × Option Rat) => (a.1, osub a.2 b.2)) aout bout))
        = ewmMean 9 (List.zipWith
        (fun (a b : Int × Option Rat) => (a.1, osub a.2 b.2)) aout bout) :=
      dropna_all_some _ hssome
    have hmacpw : ((List.zipWith (fun (a b : Int × Option Rat) => (a.1, osub a.2 b.2))
        aout bout).map Prod.fst).Pairwise (fun a b => a ≠ b) := by
      rw [hmacfst]
      exact (List.pairwise_cons.1 hpwc).2
    simp only [macdGtList, macd]
    rw [hmac, hsig]
    rw [hsfst2]
    rw [unionIdx_self]
    rw [map_fst_getv_id _ hmacpw]
    have hscol : ((List.zipWith (fun (a b : Int × Option Rat) => (a.1, osub a.2 b.2))
        aout bout).map Prod.fst).map
        (fun t => (t, getv (ewmMean 9 (List.zipWith
          (fun (a b : Int × Option Rat) => (a.1, osub a.2 b.2)) aout bout)) t))
        = ewmMean 9 (List.zipWith
          (fun (a b : Int × Option Rat) => (a.1, osub a.2 b.2)) aout bout) := by
      rw [← hsfst2]
      exact map_fst_getv_id _ (by rw [hsfst2]; exact hmacpw)
    rw [hscol]
    rw [map_fst_zipWith2 (fun (m s : Int × Option Rat) => ogt m.2 s.2) _ _
      (le_of_eq (len_eq_of_fst _ _ hsfst2.symm))]
    rw [hmacfst]
    rfl

theorem map_fst_pairmap2 {α β : Type} (s : List (Int × α)) (g : α → β) :
    (s.map (fun q => (q.1, g q.2))).map Prod.fst = s.map Prod.fst := by
  rw [List.map_map]
  rfl

set_option maxHeartbeats 4000000 in
/-- C8 (confirmed): with positive, defined prices on a strictly ascending
    index, the MACD crossover signal series (default spans 12/26/9) lives
    on the price index with the first two timestamps dropped, and each of
    its entries is the first difference of the boolean state
    macd > signal: nonzero exactly where that state flips, +1 at an upward
    flip and -1 at a downward flip.  On the concrete price series
    [100, 90, 85, 100, 120, 140] the state has a single upward crossing
    and the derived series is exactly [+1, 0, 0, 0] starting at the third
    timestamp. -/
theorem c8_macd_cross (close : Ser)
    (hsort : (close.map Prod.fst).Pairwise (fun a b => a < b))
    (hsome : ∀ q ∈ close, q.2.isSome)
    (hposv : ∀ q ∈ close, 0 < q.2.getD 0) :
    (generate_signals close 12 26 9).map Prod.fst = (close.map Prod.fst).drop 2 ∧
    (∀ (i : Nat) q, (generate_signals close 12 26 9).get? i = some q →
      ∃ b0 b1, (macdGtList close 26 12 9).get? i = some b0 ∧
        (macdGtList close 26 12 9).get? (i + 1) = some b1 ∧
        q = (b1.1, some ((if b1.2 then (1:Rat) else 0) - (if b0.2 then (1:Rat) else 0))) ∧
        (q.2 = some 0 ↔ b1.2 = b0.2) ∧
        (q.2 = some 1 ↔ (b1.2 = true ∧ b0.2 = false)) ∧
        (q.2 = some (-1) ↔ (b1.2 = false ∧ b0.2 = true))) ∧
    generate_signals [((0:Int), some (100:Rat)), (1, some 90), (2, some 85),
      (3, some 100), (4, some 120), (5, some 140)] 12 26 9
      = [((2:Int), some (1:Rat)), (3, some 0), (4, some 0), (5, some 0)] := by
  have hd : ∀ q ∈ close, ∃ x, q.2 = some x ∧ 0 < x := by
    intro q hq
    obtain ⟨x, hx⟩ := Option.isSome_iff_exists.1 (hsome q hq)
    refine ⟨x, hx, ?_⟩
    have h2 := hposv q hq
    rw [hx] at h2
    simpa using h2
  have hpw : (close.map Prod.fst).Pairwise (fun a b => a ≠ b) :=
    hsort.imp (fun h => ne_of_lt h)
  have hbsome : ∀ q ∈ (macdGtList close 26 12 9).map
      (fun q => (q.1, some (if q.2 then (1:Rat) else 0))), q.2.isSome := by
    intro q hq
    obtain ⟨r, _, rfl⟩ := List.mem_map.1 hq
    rfl
  have hgs : generate_signals close 12 26 9 = List.zipWith
      (fun (cur prev : Int × Option Rat) => (cur.1, osub cur.2 prev.2))
      ((macdGtList close 26 12 9).map
        (fun q => (q.1, some (if q.2 then (1:Rat) else 0)))).tail
      ((macdGtList close 26 12 9).map
        (fun q => (q.1, some (if q.2 then (1:Rat) else 0)))) := by
    simp only [generate_signals]
    exact dropna_diff1_all_some _ hbsome
  refine ⟨?_, ?_, ?_⟩
  · rw [hgs]
    rw [map_fst_zipWith2 (fun (c p : Int × Option Rat) => osub c.2 p.2) _ _
      (by rw [List.length_tail]; exact Nat.sub_le _ _)]
    have hblfst : ((macdGtList close 26 12 9).map
        (fun q => (q.1, some (if q.2 then (1:Rat) else 0)))).map Prod.fst
        = (macdGtList close 26 12 9).map Prod.fst :=
      map_fst_pairmap2 (macdGtList close 26 12 9)
        (fun v => some (if v then (1:Rat) else 0))
    rw [List.map_tail, hblfst, fst_macdGtList close hpw hd, List.tail_drop]
  · intro i q hq
    rw [hgs, get?_zipWith, get?_tail, List.get?_map, List.get?_map] at hq
    cases hg1 : (macdGtList close 26 12 9).get? (i + 1) with
    | none =>
      rw [hg1, Option.map_none'] at hq
      simp at hq
    | some b1 =>
      cases hg0 : (macdGtList close 26 12 9).get? i with
      | none =>
        rw [hg0, hg1, Option.map_none'] at hq
        simp at hq
      | some b0 =>
        rw [hg0, hg1] at hq
        simp only [Option.map_some'] at hq
        injection hq with hq2
        subst hq2
        refine ⟨b0, b1, rfl, rfl, rfl, ?_, ?_, ?_⟩ <;>
          · cases hb0 : b0.2 <;> cases hb1 : b1.2 <;>
              simp [osub, Option.some.injEq] <;> norm_num
  · with_unfolding_all decide

/-- C8 witness: the theorem applied to the concrete price series
    [100, 90, 85, 100, 120, 140], whose crossover state flips upward once. -/
theorem c8_macd_cross_witness :
    (([((0:Int), some (100:Rat)), (1, some 90), (2, some 85),
        (3, some 100), (4, some 120), (5, some 140)] : Ser).map Prod.fst).Pairwise
      (fun a b => a < b) ∧
    (∀ q ∈ ([((0:Int), some (100:Rat)), (1, some 90), (2, some 85),
        (3, some 100), (4, some 120), (5, some 140)] : Ser), q.2.isSome) ∧
    (generate_signals [((0:Int), some (100:Rat)), (1, some 90), (2, some 85),
        (3, some 100), (4, some 120), (5, some 140)] 12 26 9).map Prod.fst
      = (([((0:Int), some (100:Rat)), (1, some 90), (2, some 85),
        (3, some 100), (4, some 120), (5, some 140)] : Ser).map Prod.fst).drop 2 := by
  refine ⟨by decide, by decide, ?_⟩
  exact (c8_macd_cross _ (by decide) (by decide) (by with_unfolding_all decide)).1

